import Mathlib

/-!
# The scanner of the C minus compiler (`scan.c`)

A shallow embedding of `getNextChar`, `ungetNextChar`, `reservedLookup` and
`getToken`, and the properties of the token they return.

Conventions of the embedding.

* A C `int` has 32 bits and `EOF` is `-1`.  A plain `char` is signed, as it is
  for GCC on x86-64: its values lie in `-128 .. 127`, a byte `0x80 .. 0xFF` of
  the file is the `char` 256 below it, and the byte `0xFF` is the `char` `-1`,
  which `getNextChar` returns as an `int` equal to `EOF`.  The cast `(char) c`
  is `toChar c`.
* The counter `lineno` is a C `int`: its increment wraps at `INT_MAX` as the
  arithmetic of the machine does (in C the overflow is undefined).
* The source file is the list of the characters not yet read from it, as
  `fgets` stores them in the `char` array `lineBuf`.
* `isdigit` and `isalpha` are those of the "C" locale; they are false of the
  negative values of a `char`.
* The listing output (`EchoSource`, `TraceScan`) does not act on the scanner and
  is left out.
-/

namespace Scan

/-! ## Characters -/

/-- The `int` value of a character constant. -/
def ch (c : Char) : Int := (c.toNat : Int)

/-- The characters of a string literal, without the terminating NUL. -/
def str (s : String) : List Int := s.toList.map ch

/-- The value `EOF` of `stdio.h`. -/
def EOF : Int := -1

/-- The value of a plain `char`, which is signed, that holds the low eight bits
of `c`: the cast `(char) c`, and the `char` in which a byte `c` of the file is
stored. -/
def toChar (c : Int) : Int := (c + 128) % 256 - 128

/-- The largest value of a C `int`. -/
def INT_MAX : Int := 2147483647

/-- The smallest value of a C `int`. -/
def INT_MIN : Int := -2147483648

/-- The increment `n++` of a C `int`, which wraps from `INT_MAX` to `INT_MIN`. -/
def intSucc (n : Int) : Int := (n + 1 + 2147483648) % 4294967296 - 2147483648

/-- The function `isdigit` of `ctype.h` in the "C" locale. -/
def isdigit (c : Int) : Bool := decide (ch '0' ≤ c ∧ c ≤ ch '9')

/-- The function `isalpha` of `ctype.h` in the "C" locale. -/
def isalpha (c : Int) : Bool :=
  decide ((ch 'A' ≤ c ∧ c ≤ ch 'Z') ∨ (ch 'a' ≤ c ∧ c ≤ ch 'z'))

/-- The value GCC and Clang give a multi-character constant such as `'if'`: the
characters are the base 256 digits of the value, the first one the most
significant. -/
def multichar (s : String) : Int := s.toList.foldl (fun v c => v * 256 + ch c) 0

/-! ## Token kinds and DFA states -/

/-- Modelled from the spec: `globals.h`, which declares `TokenType`, is missing.
The kinds are the enumerators that `scan.c` names, one token kind each as
in section 6 of the specification. -/
inductive TokenType
  | ENDFILE | ERROR
  | IF | ELSE | WHILE | RETURN | INT | VOID
  | ID | NUM
  | ASSIGN | EQ | NE | LT | LE | GT | GE | PLUS | MINUS | TIMES | OVER
  | LPAREN | RPAREN | LCURLY | RCURLY | LBRACE | RBRACE | SEMI | COMMA
  deriving DecidableEq

/-- The states in the scanner DFA. -/
inductive StateType
  | START | INEQ | INCOMMENT | INNUM | INID | DONE | INLT | INGT | INNE | INOVER
  deriving DecidableEq

/-! ## The line buffer -/

/-- The length of the input buffer for source code lines. -/
def BUFLEN : Nat := 256

/-- The line buffer state of `scan.c`, with the unread rest of the file `source`
and the global `lineno`.  `lineBuf` is the string that the array holds.  The
characters of `source` and of `lineBuf` are values of a plain `char`, and
`lineno` is the value of a C `int`, which `getNextChar` increments by
`intSucc`. -/
structure LineBuffer where
  source : List Int
  lineBuf : List Int
  linepos : Int
  bufsize : Int
  EOF_flag : Bool
  lineno : Int
  deriving DecidableEq

/-- The characters `fgets` stores when it may still store `k` of them: it stops
after a newline and at the end of the file. -/
def readLine : Nat → List Int → List Int × List Int
  | 0, src => ([], src)
  | _ + 1, [] => ([], [])
  | k + 1, c :: src =>
    if c = ch '\n' then ([c], src)
    else ((c :: (readLine k src).1), (readLine k src).2)

/-- The call `fgets(lineBuf, n, source)`: `none` is the null pointer, returned
when the file has no character left; otherwise the line read, of at most `n - 1`
characters, and the rest of the file. -/
def fgets (n : Nat) (src : List Int) : Option (List Int × List Int) :=
  if src = [] then none else some (readLine (n - 1) src)

/-- The function `strlen`: the number of characters before the first NUL. -/
def strlen (s : List Int) : Int := ((s.takeWhile (fun c => c ≠ 0)).length : Int)

/-- The function `getNextChar` fetches the next character from `lineBuf`,
reading in a new line if `lineBuf` is exhausted.  The element read at an index
that is not inside the string is the NUL that ends it. -/
def getNextChar (b : LineBuffer) : Int × LineBuffer :=
  if ¬ (b.linepos < b.bufsize) then
    match fgets (BUFLEN - 1) b.source with
    | some (line, src) =>
      (line.getD 0 0,
        { source := src, lineBuf := line, linepos := 1, bufsize := strlen line,
          EOF_flag := b.EOF_flag, lineno := intSucc b.lineno })
    | none => (EOF, { b with EOF_flag := true, lineno := intSucc b.lineno })
  else (b.lineBuf.getD b.linepos.toNat 0, { b with linepos := b.linepos + 1 })

/-- The function `ungetNextChar` backtracks one character in `lineBuf`. -/
def ungetNextChar (b : LineBuffer) : LineBuffer :=
  if ¬ b.EOF_flag then { b with linepos := b.linepos - 1 } else b

/-- The line buffer before the first call, on a file with the given bytes, each
of which `fgets` will store in a `char`. -/
def openSource (text : List Int) : LineBuffer :=
  { source := text.map toChar, lineBuf := [], linepos := 0, bufsize := 0,
    EOF_flag := false, lineno := 0 }

/-! ## Reserved words -/

/-- Modelled from the spec: `globals.h`, which defines `MAXRESERVED`, is missing.
The fixed table of the specification holds six reserved words, the six entries
of the initialiser of `reservedWords`. -/
def MAXRESERVED : Nat := 6

/-- The lookup table of reserved words. -/
def reservedWords : List (List Int × TokenType) :=
  [(str "if", .IF), (str "else", .ELSE), (str "while", .WHILE),
   (str "return", .RETURN), (str "int", .INT), (str "void", .VOID)]

/-- The function `strcmp` on the arrays that hold the two strings: a string ends
at its first NUL or at the end of the list.  The result is zero when the strings
are equal and the difference of the first two characters that differ
otherwise. -/
def strcmp : List Int → List Int → Int
  | [], [] => 0
  | a :: _, [] => a
  | [], b :: _ => -b
  | a :: s, b :: t => if a = b then (if a = 0 then 0 else strcmp s t) else a - b

/-- The loop of `reservedLookup` over the entries of the table from `i` on. -/
def reservedLookupFrom : List (List Int × TokenType) → List Int → TokenType
  | [], _ => .ID
  | w :: ws, s => if strcmp s w.1 = 0 then w.2 else reservedLookupFrom ws s

/-- The function `reservedLookup` looks up an identifier to see if it is a
reserved word; it uses linear search over the first `MAXRESERVED` entries. -/
def reservedLookup (s : List Int) : TokenType :=
  reservedLookupFrom (reservedWords.take MAXRESERVED) s

/-! ## The scanner -/

/-- The variables of `getToken` that live across the iterations of its loop,
with the line buffer.  `tokenString` holds the characters stored so far, and
`tokenStringIndex` is its length. -/
structure Loop where
  state : StateType
  currentToken : TokenType
  tokenString : List Int
  buf : LineBuffer
  deriving DecidableEq

/-- The variables that the `switch (state)` of `getToken` may assign. -/
structure Switch where
  state : StateType
  currentToken : TokenType
  save : Bool
  c : Int
  buf : LineBuffer

/-- The inner `switch (c)` of the `START` case, which sets `currentToken` and
may clear `save`.  The labels `'if'`, `'int'`, `'retu'`, `'void'` and `'whil'`
are multi-character constants. -/
def startSwitch (c : Int) : TokenType × Bool :=
  if c = EOF then (.ENDFILE, false)
  else if c = ch '+' then (.PLUS, true)
  else if c = ch '-' then (.MINUS, true)
  else if c = ch '*' then (.TIMES, true)
  else if c = ch '(' then (.LPAREN, true)
  else if c = ch ')' then (.RPAREN, true)
  else if c = ch '{' then (.LCURLY, true)
  else if c = ch '}' then (.RCURLY, true)
  else if c = ch '[' then (.LBRACE, true)
  else if c = ch ']' then (.RBRACE, true)
  else if c = ch ';' then (.SEMI, true)
  else if c = ch ',' then (.COMMA, true)
  else if c = multichar "if" then (.IF, true)
  else if c = multichar "int" then (.INT, true)
  else if c = multichar "retu" then (.RETURN, true)
  else if c = multichar "void" then (.VOID, true)
  else if c = multichar "whil" then (.WHILE, true)
  else (.ERROR, true)

/-- The `switch (state)` of one iteration of the loop of `getToken`, entered
with `save = TRUE` and the character `c` just read, the line buffer being `b`
after that read. -/
def switchState (state : StateType) (currentToken : TokenType) (c : Int)
    (b : LineBuffer) : Switch :=
  match state with
  | .START =>
    if isdigit c then ⟨.INNUM, currentToken, true, c, b⟩
    else if isalpha c then ⟨.INID, currentToken, true, c, b⟩
    else if c = ch ' ' ∨ c = ch '\t' ∨ c = ch '\n' then
      ⟨.START, currentToken, false, c, b⟩
    else if c = ch '/' then ⟨.INOVER, currentToken, false, c, b⟩
    else if c = ch '=' then ⟨.INEQ, currentToken, false, c, b⟩
    else if c = ch '<' then ⟨.INLT, currentToken, false, c, b⟩
    else if c = ch '>' then ⟨.INGT, currentToken, false, c, b⟩
    else if c = ch '!' then ⟨.INNE, currentToken, false, c, b⟩
    else ⟨.DONE, (startSwitch c).1, (startSwitch c).2, c, b⟩
  | .INOVER =>
    if c = ch '*' then ⟨.INCOMMENT, currentToken, false, c, b⟩
    else ⟨.DONE, .OVER, true, c, ungetNextChar b⟩
  | .INEQ =>
    if c = ch '=' then ⟨.DONE, .EQ, true, c, b⟩
    else ⟨.DONE, .ASSIGN, true, c, ungetNextChar b⟩
  | .INLT =>
    if c = ch '=' then ⟨.DONE, .LE, true, c, b⟩
    else ⟨.DONE, .LT, true, c, ungetNextChar b⟩
  | .INGT =>
    if c = ch '=' then ⟨.DONE, .GE, true, c, b⟩
    else ⟨.DONE, .GT, true, c, ungetNextChar b⟩
  | .INNE =>
    if c = ch '=' then ⟨.DONE, .NE, true, c, b⟩
    else ⟨.DONE, .ERROR, true, c, b⟩
  | .INCOMMENT =>
    if c = ch '*' then
      let c2 := (getNextChar b).1
      let b2 := (getNextChar b).2
      if c2 = ch '/' then ⟨.START, currentToken, false, c2, b2⟩
      else if c2 = EOF then ⟨.DONE, .ENDFILE, false, c2, b2⟩
      else ⟨.INCOMMENT, currentToken, false, c2, ungetNextChar b2⟩
    else if c = EOF then ⟨.DONE, .ENDFILE, false, c, b⟩
    else ⟨.INCOMMENT, currentToken, false, c, b⟩
  | .INNUM =>
    if ¬ isdigit c then
      if isalpha c then ⟨.INNUM, .ERROR, true, c, b⟩
      else
        ⟨.DONE, if currentToken ≠ .ERROR then .NUM else currentToken, false, c,
          ungetNextChar b⟩
    else ⟨.INNUM, currentToken, true, c, b⟩
  | .INID =>
    if ¬ isalpha c then
      if isdigit c then ⟨.INID, .ERROR, true, c, b⟩
      else
        ⟨.DONE, if currentToken ≠ .ERROR then .ID else currentToken, false, c,
          ungetNextChar b⟩
    else ⟨.INID, currentToken, true, c, b⟩
  | .DONE => ⟨.DONE, .ERROR, true, c, b⟩

/-- The statement `if ((save) && (tokenStringIndex <= MAXTOKENLEN))
tokenString[tokenStringIndex++] = (char)c;`. -/
def store (MAXTOKENLEN : Nat) (save : Bool) (tokenString : List Int) (c : Int) :
    List Int :=
  if save = true ∧ (tokenString.length : Int) ≤ MAXTOKENLEN then
    tokenString ++ [toChar c]
  else tokenString

/-- The statement `if (state == DONE)` that ends an iteration: `tokenString` is
closed by a NUL at `tokenStringIndex` and an `ID` is looked up among the reserved
words. -/
def finish (state : StateType) (currentToken : TokenType) (tokenString : List Int) :
    TokenType :=
  if state = .DONE ∧ currentToken = .ID then reservedLookup tokenString
  else currentToken

/-- One iteration of the `while (state != DONE)` loop of `getToken`.
`MAXTOKENLEN` is a constant of the missing `globals.h`. -/
def getTokenStep (MAXTOKENLEN : Nat) (l : Loop) : Loop :=
  let c := (getNextChar l.buf).1
  let b := (getNextChar l.buf).2
  let sw := switchState l.state l.currentToken c b
  let ts := store MAXTOKENLEN sw.save l.tokenString sw.c
  { state := sw.state, currentToken := finish sw.state sw.currentToken ts,
    tokenString := ts, buf := sw.buf }

/-- The loop `while (state != DONE)` of `getToken`, run for at most `fuel`
iterations: `none` when the state is not `DONE` by then. -/
def getTokenLoop (MAXTOKENLEN : Nat) : Nat → Loop → Option Loop
  | 0, l => if l.state = .DONE then some l else none
  | fuel + 1, l =>
    if l.state = .DONE then some l
    else getTokenLoop MAXTOKENLEN fuel (getTokenStep MAXTOKENLEN l)

/-- The text that `getNextChar` has not returned yet: what is left of the line
in `lineBuf`, then what is left of the file. -/
def unread (b : LineBuffer) : List Int := b.lineBuf.drop b.linepos.toNat ++ b.source

/-- The function `getToken` returns the next token in the source file: its
kind, the lexeme left in `tokenString`, and the line buffer.  `currentToken0` is
the indeterminate value that the local variable `currentToken`, declared without
an initialiser, holds on entry; the code only ever compares it with `ERROR`.
The loop is run for one iteration more than
there are unread characters, which is as many as it can take (`getToken_returns`);
`none` would say that it has not returned by then. -/
def getToken (MAXTOKENLEN : Nat) (currentToken0 : TokenType) (b : LineBuffer) :
    Option (TokenType × List Int × LineBuffer) :=
  (getTokenLoop MAXTOKENLEN ((unread b).length + 1)
      { state := .START, currentToken := currentToken0, tokenString := [], buf := b }).map
    (fun l => (l.currentToken, l.tokenString, l.buf))

/-! ## The scanner over the unread text

The loop of `getToken` acts on the line buffer through `getNextChar` and
`ungetNextChar` alone, and on a well-formed line buffer these walk through the
unread text.  `scanText` is the same loop over that text, and
`getTokenLoop_scanText` shows that `getToken` computes it. -/

/-- The values of a plain `char` other than NUL. -/
def IsChar (c : Int) : Prop := -128 ≤ c ∧ c ≤ 127 ∧ c ≠ 0

instance (c : Int) : Decidable (IsChar c) := by
  unfold IsChar; infer_instance

/-- The line buffers that `getNextChar` and `ungetNextChar` keep to, starting
from `openSource` on a text without NUL: `bufsize` is the length of the line
held, `linepos` is inside it, the characters are values of a plain `char` other
than NUL, and once `EOF_flag` is set nothing is left to read. -/
def WellFormed (b : LineBuffer) : Prop :=
  b.bufsize = (b.lineBuf.length : Int) ∧ 0 ≤ b.linepos ∧ b.linepos ≤ b.bufsize ∧
  (∀ c ∈ b.lineBuf, IsChar c) ∧ (∀ c ∈ b.source, IsChar c) ∧
  (b.EOF_flag = true → b.linepos = b.bufsize ∧ b.source = [])

instance (b : LineBuffer) : Decidable (WellFormed b) := by
  unfold WellFormed; infer_instance

/-- The token that the loop of `getToken` ends with when it is in state `st`
with `currentToken = cur` and `tokenString = ts` and the unread text is the
first argument: the kind, the lexeme and the text left unread. -/
def scanText (M : Nat) :
    List Int → StateType → TokenType → List Int → TokenType × List Int × List Int
  | t, .DONE, cur, ts => (cur, ts, t)
  | [], .START, _, ts => (.ENDFILE, ts, [])
  | [], .INOVER, _, ts => (.OVER, store M true ts EOF, [])
  | [], .INEQ, _, ts => (.ASSIGN, store M true ts EOF, [])
  | [], .INLT, _, ts => (.LT, store M true ts EOF, [])
  | [], .INGT, _, ts => (.GT, store M true ts EOF, [])
  | [], .INNE, _, ts => (.ERROR, store M true ts EOF, [])
  | [], .INCOMMENT, _, ts => (.ENDFILE, ts, [])
  | [], .INNUM, cur, ts => (if cur ≠ .ERROR then .NUM else cur, ts, [])
  | [], .INID, cur, ts => (if cur ≠ .ERROR then reservedLookup ts else cur, ts, [])
  | c :: r, .START, cur, ts =>
    if isdigit c then scanText M r .INNUM cur (store M true ts c)
    else if isalpha c then scanText M r .INID cur (store M true ts c)
    else if c = ch ' ' ∨ c = ch '\t' ∨ c = ch '\n' then scanText M r .START cur ts
    else if c = ch '/' then scanText M r .INOVER cur ts
    else if c = ch '=' then scanText M r .INEQ cur ts
    else if c = ch '<' then scanText M r .INLT cur ts
    else if c = ch '>' then scanText M r .INGT cur ts
    else if c = ch '!' then scanText M r .INNE cur ts
    else ((startSwitch c).1, store M (startSwitch c).2 ts c, r)
  | c :: r, .INOVER, cur, ts =>
    if c = ch '*' then scanText M r .INCOMMENT cur ts
    else (.OVER, store M true ts c, c :: r)
  | c :: r, .INEQ, _, ts =>
    if c = ch '=' then (.EQ, store M true ts c, r)
    else (.ASSIGN, store M true ts c, c :: r)
  | c :: r, .INLT, _, ts =>
    if c = ch '=' then (.LE, store M true ts c, r)
    else (.LT, store M true ts c, c :: r)
  | c :: r, .INGT, _, ts =>
    if c = ch '=' then (.GE, store M true ts c, r)
    else (.GT, store M true ts c, c :: r)
  | c :: r, .INNE, _, ts =>
    if c = ch '=' then (.NE, store M true ts c, r)
    else (.ERROR, store M true ts c, r)
  | c :: r, .INCOMMENT, cur, ts =>
    if c = ch '*' then
      match r with
      | [] => (.ENDFILE, ts, [])
      | c2 :: r2 =>
        if c2 = ch '/' then scanText M r2 .START cur ts
        else if c2 = EOF then (.ENDFILE, ts, r2)
        else scanText M (c2 :: r2) .INCOMMENT cur ts
    else if c = EOF then (.ENDFILE, ts, r)
    else scanText M r .INCOMMENT cur ts
  | c :: r, .INNUM, cur, ts =>
    if isdigit c then scanText M r .INNUM cur (store M true ts c)
    else if isalpha c then scanText M r .INNUM .ERROR (store M true ts c)
    else (if cur ≠ .ERROR then .NUM else cur, ts, c :: r)
  | c :: r, .INID, cur, ts =>
    if isalpha c then scanText M r .INID cur (store M true ts c)
    else if isdigit c then scanText M r .INID .ERROR (store M true ts c)
    else (if cur ≠ .ERROR then reservedLookup ts else cur, ts, c :: r)

/-- A call of one of the two functions of the line buffer. -/
inductive Call
  | get | unget
  deriving DecidableEq

/-- The line buffer after a call of `getNextChar` or of `ungetNextChar`. -/
def applyCall : Call → LineBuffer → LineBuffer
  | .get, b => (getNextChar b).2
  | .unget, b => ungetNextChar b

/-- The line buffer after a sequence of calls, made in the order of the list. -/
def applyCalls : List Call → LineBuffer → LineBuffer
  | [], b => b
  | k :: ks, b => applyCalls ks (applyCall k b)

/-- The calls that the `switch (state)` of `getToken` makes, in the order in
which it makes them, when it is entered with the character `c` just read and the
line buffer `b`: one `ungetNextChar` where a case backs up in the input, and in
`INCOMMENT` after a `*` one `getNextChar`, followed by an `ungetNextChar` when
the character it returns is neither `/` nor `EOF`. -/
def switchCalls (state : StateType) (c : Int) (b : LineBuffer) : List Call :=
  match state with
  | .START => []
  | .INOVER => if c = ch '*' then [] else [.unget]
  | .INEQ => if c = ch '=' then [] else [.unget]
  | .INLT => if c = ch '=' then [] else [.unget]
  | .INGT => if c = ch '=' then [] else [.unget]
  | .INNE => []
  | .INCOMMENT =>
    if c = ch '*' then
      if (getNextChar b).1 = ch '/' then [.get]
      else if (getNextChar b).1 = EOF then [.get]
      else [.get, .unget]
    else []
  | .INNUM => if ¬ isdigit c then (if isalpha c then [] else [.unget]) else []
  | .INID => if ¬ isalpha c then (if isdigit c then [] else [.unget]) else []
  | .DONE => []

/-- The calls of one iteration of the loop of `getToken`: the `getNextChar` at
its head, then those of the `switch (state)`. -/
def stepCalls (l : Loop) : List Call :=
  .get :: switchCalls l.state (getNextChar l.buf).1 (getNextChar l.buf).2

/-- The calls of the loop of `getToken`, run as in `getTokenLoop`. -/
def loopCalls (MAXTOKENLEN : Nat) : Nat → Loop → List Call
  | 0, _ => []
  | fuel + 1, l =>
    if l.state = .DONE then []
    else stepCalls l ++ loopCalls MAXTOKENLEN fuel (getTokenStep MAXTOKENLEN l)

/-- The calls that one call of `getToken` makes to the line buffer. -/
def getTokenCalls (MAXTOKENLEN : Nat) (currentToken0 : TokenType) (b : LineBuffer) :
    List Call :=
  loopCalls MAXTOKENLEN ((unread b).length + 1)
    { state := .START, currentToken := currentToken0, tokenString := [], buf := b }

/-- No two calls of `ungetNextChar` follow each other in the sequence. -/
def NoDoubleUnget : List Call → Prop
  | a :: k :: ks => ¬ (a = .unget ∧ k = .unget) ∧ NoDoubleUnget (k :: ks)
  | _ => True

/-- The cursor is inside the line: `0 <= linepos <= bufsize`. -/
def InRange (b : LineBuffer) : Prop := 0 ≤ b.linepos ∧ b.linepos ≤ b.bufsize

/-- The counter `lineno` holds an `int` below `INT_MAX`, so that the next
`lineno++` does not overflow. -/
def BelowIntMax (b : LineBuffer) : Prop := INT_MIN ≤ b.lineno ∧ b.lineno < INT_MAX

instance (b : LineBuffer) : Decidable (BelowIntMax b) := by
  unfold BelowIntMax; infer_instance

/-- The cursor is inside the line and the rest of the file holds no NUL. -/
def InRangeNulFree (b : LineBuffer) : Prop := InRange b ∧ ∀ c ∈ b.source, c ≠ 0

instance (b : LineBuffer) : Decidable (InRange b) := by
  unfold InRange; infer_instance

/-- The property `P` holds of the line buffer before the calls of the sequence,
between any two of them and after them. -/
def Along (P : LineBuffer → Prop) : List Call → LineBuffer → Prop
  | [], b => P b
  | k :: ks, b => P b ∧ Along P ks (applyCall k b)

instance decidableAlong (P : LineBuffer → Prop) [DecidablePred P] :
    (ks : List Call) → (b : LineBuffer) → Decidable (Along P ks b)
  | [], b => inferInstanceAs (Decidable (P b))
  | k :: ks, b => @instDecidableAnd _ _ _ (decidableAlong P ks (applyCall k b))

/-! ## The line buffer walks through the unread text -/

theorem ch_values :
    ch '0' = 48 ∧ ch '9' = 57 ∧ ch 'A' = 65 ∧ ch 'Z' = 90 ∧ ch 'a' = 97 ∧ ch 'z' = 122 ∧
    ch ' ' = 32 ∧ ch '\t' = 9 ∧ ch '\n' = 10 ∧ ch '/' = 47 ∧ ch '=' = 61 ∧ ch '<' = 60 ∧
    ch '>' = 62 ∧ ch '!' = 33 ∧ ch '*' = 42 ∧ ch '+' = 43 ∧ ch '-' = 45 ∧ ch '(' = 40 ∧
    ch ')' = 41 ∧ ch '{' = 123 ∧ ch '}' = 125 ∧ ch '[' = 91 ∧ ch ']' = 93 ∧ ch ';' = 59 ∧
    ch ',' = 44 := by decide

theorem readLine_append (k : Nat) (src : List Int) :
    (readLine k src).1 ++ (readLine k src).2 = src := by
  induction k generalizing src with
  | zero => simp [readLine]
  | succ k ih =>
    cases src with
    | nil => simp [readLine]
    | cons c src =>
      by_cases hc : c = ch '\n'
      · simp [readLine, hc]
      · simp [readLine, hc, ih]

theorem readLine_cons (k : Nat) (c : Int) (src : List Int) :
    ∃ l, (readLine (k + 1) (c :: src)).1 = c :: l := by
  by_cases hc : c = ch '\n'
  · exact ⟨[], by simp [readLine, hc]⟩
  · exact ⟨(readLine k src).1, by simp [readLine, hc]⟩

theorem toChar_of_isChar {c : Int} (h : IsChar c) : toChar c = c := by
  obtain ⟨h1, h2, _⟩ := h
  unfold toChar
  omega

theorem isChar_toChar (c : Int) (h : 1 ≤ c ∧ c ≤ 255) : IsChar (toChar c) := by
  unfold IsChar toChar
  omega

theorem strlen_eq_length (l : List Int) (h : ∀ c ∈ l, IsChar c) :
    strlen l = (l.length : Int) := by
  unfold strlen
  congr 1
  rw [List.takeWhile_eq_self_iff.mpr]
  intro c hc
  have := (h c hc).2.2
  simpa using this

theorem getNextChar_nil {b : LineBuffer} (hb : WellFormed b) (h : unread b = []) :
    ∃ b2, getNextChar b = (EOF, b2) ∧ WellFormed b2 ∧ unread b2 = [] ∧
      ungetNextChar b2 = b2 := by
  obtain ⟨h1, h2, h3, h4, h5, h6⟩ := hb
  simp only [unread, List.append_eq_nil, List.drop_eq_nil_iff] at h
  obtain ⟨hd, hs⟩ := h
  have hge : ¬ (b.linepos < b.bufsize) := by omega
  refine ⟨{ b with EOF_flag := true, lineno := intSucc b.lineno }, ?_, ?_, ?_, ?_⟩
  · simp [getNextChar, hge, hs, fgets]
  · refine ⟨h1, h2, h3, h4, h5, fun _ => ⟨by simp only; omega, hs⟩⟩
  · simp only [unread, List.append_eq_nil, List.drop_eq_nil_iff]
    exact ⟨hd, hs⟩
  · simp [ungetNextChar]

theorem getNextChar_cons {b : LineBuffer} {c : Int} {r : List Int}
    (hb : WellFormed b) (h : unread b = c :: r) :
    ∃ b2, getNextChar b = (c, b2) ∧ WellFormed b2 ∧ unread b2 = r ∧
      WellFormed (ungetNextChar b2) ∧ unread (ungetNextChar b2) = c :: r ∧
      IsChar c ∧ toChar c = c := by
  obtain ⟨h1, h2, h3, h4, h5, h6⟩ := hb
  have hflag : b.EOF_flag = false := by
    cases hf : b.EOF_flag with
    | false => rfl
    | true =>
      exfalso
      obtain ⟨hp, hs⟩ := h6 hf
      have : b.lineBuf.drop b.linepos.toNat = [] := by
        rw [List.drop_eq_nil_iff]; omega
      simp [unread, this, hs] at h
  by_cases hlt : b.linepos < b.bufsize
  · have hn : b.linepos.toNat < b.lineBuf.length := by omega
    have hdrop := List.drop_eq_getElem_cons hn
    simp only [unread, hdrop, List.cons_append, List.cons.injEq] at h
    obtain ⟨hc, hr⟩ := h
    have hget : b.lineBuf.getD b.linepos.toNat 0 = c := by
      rw [List.getD_eq_getElem _ _ hn]; exact hc
    have hpos : (b.linepos + 1).toNat = b.linepos.toNat + 1 := by omega
    have hcr : IsChar c := by
      rw [← hc]; exact h4 _ (List.getElem_mem _)
    refine ⟨{ b with linepos := b.linepos + 1 }, ?_, ?_, ?_, ?_, ?_, hcr,
      toChar_of_isChar hcr⟩
    · simp only [getNextChar, hlt, not_true_eq_false, if_false, hget]
    · exact ⟨h1, by simp only; omega, by simp only; omega, h4, h5,
        fun hf => by simp only at hf; rw [hflag] at hf; cases hf⟩
    · simp only [unread, hpos]; exact hr
    · simp only [ungetNextChar, hflag]
      exact ⟨h1, by simp; omega, by simp; omega, h4, h5,
        fun hf => by simp at hf⟩
    · simp only [ungetNextChar, hflag, unread]
      simp [hdrop, hc, hr]
  · have hd : b.lineBuf.drop b.linepos.toNat = [] := by
      rw [List.drop_eq_nil_iff]; omega
    simp only [unread, hd, List.nil_append] at h
    obtain ⟨line, src, hrl⟩ : ∃ line src, readLine 254 (c :: r) = (line, src) :=
      ⟨_, _, rfl⟩
    obtain ⟨l, hl⟩ := readLine_cons 253 c r
    have happ := readLine_append 254 (c :: r)
    simp only [hrl] at hl happ
    subst hl
    have hrest : l ++ src = r := by simpa using happ
    have hmem : ∀ x ∈ (c :: l) ++ src, IsChar x := by
      rw [happ, ← h]; exact h5
    have hline : ∀ x ∈ c :: l, IsChar x :=
      fun x hx => hmem x (List.mem_append_left _ hx)
    have hsrc : ∀ x ∈ src, IsChar x :=
      fun x hx => hmem x (List.mem_append_right _ hx)
    have hlen : strlen (c :: l) = (l.length : Int) + 1 := by
      rw [strlen_eq_length _ hline]; simp
    have hcr : IsChar c := hline c (List.mem_cons_self _ _)
    have hget : getNextChar b =
        (c, { source := src, lineBuf := c :: l, linepos := 1, bufsize := (l.length : Int) + 1,
              EOF_flag := false, lineno := intSucc b.lineno }) := by
      simp [getNextChar, hlt, h, fgets, BUFLEN, hrl, hlen, hflag]
    refine ⟨_, hget, ?_, ?_, ?_, ?_, hcr, toChar_of_isChar hcr⟩
    · exact ⟨by simp, by simp, by simp, hline, hsrc, fun hf => by simp at hf⟩
    · simpa [unread] using hrest
    · exact ⟨by simp [ungetNextChar], by simp [ungetNextChar],
        by simp only [ungetNextChar]; simp; omega, hline, hsrc,
        fun hf => by simp [ungetNextChar] at hf⟩
    · simpa [ungetNextChar, unread] using hrest

/-! ## `getToken` computes `scanText` -/

theorem getTokenLoop_done (M n : Nat) (cur : TokenType) (ts : List Int) (b : LineBuffer) :
    getTokenLoop M n ⟨.DONE, cur, ts, b⟩ = some ⟨.DONE, cur, ts, b⟩ := by
  cases n <;> simp [getTokenLoop]

theorem getTokenLoop_step (M n : Nat) (l : Loop) (h : l.state ≠ .DONE) :
    getTokenLoop M (n + 1) l = getTokenLoop M n (getTokenStep M l) := by
  simp [getTokenLoop, h]

theorem ite_kind_ne_ID {p : Prop} [Decidable p] {x y : TokenType × Bool}
    (hx : x.1 ≠ .ID) (hy : y.1 ≠ .ID) : (if p then x else y).1 ≠ .ID := by
  split <;> assumption

theorem startSwitch_ne_ID (c : Int) : (startSwitch c).1 ≠ .ID := by
  unfold startSwitch
  repeat (refine ite_kind_ne_ID (by simp) ?_)
  simp

theorem getTokenStep_scanText (M : Nat) (st : StateType) (cur : TokenType)
    (ts : List Int) (b : LineBuffer) (hb : WellFormed b) (hst : st ≠ .DONE) :
    WellFormed (getTokenStep M ⟨st, cur, ts, b⟩).buf ∧
    scanText M (unread (getTokenStep M ⟨st, cur, ts, b⟩).buf)
        (getTokenStep M ⟨st, cur, ts, b⟩).state
        (getTokenStep M ⟨st, cur, ts, b⟩).currentToken
        (getTokenStep M ⟨st, cur, ts, b⟩).tokenString = scanText M (unread b) st cur ts ∧
    ((getTokenStep M ⟨st, cur, ts, b⟩).state = .DONE ∨
      (unread (getTokenStep M ⟨st, cur, ts, b⟩).buf).length < (unread b).length) := by
  cases ht : unread b with
  | nil =>
    obtain ⟨b2, hg, hb2, hu2, hun⟩ := getNextChar_nil hb ht
    by_cases hce : cur = .ERROR <;> cases st <;>
      simp [getTokenStep, switchState, hg, isdigit, isalpha, startSwitch, finish,
        scanText, hun, ch_values, EOF, store, hce, hb2, hu2] at hst ⊢
  | cons c r =>
    obtain ⟨b2, hg, hb2, hu2, hbu, huu, hc1, hc2⟩ := getNextChar_cons hb ht
    cases st
    case DONE => exact absurd rfl hst
    case START =>
      by_cases h1 : isdigit c = true
      · simp [getTokenStep, hg, switchState, scanText, finish, hb2, hu2, h1]
      by_cases h2 : isalpha c = true
      · simp [getTokenStep, hg, switchState, scanText, finish, hb2, hu2, h1, h2]
      by_cases h3 : c = ch ' ' ∨ c = ch '\t' ∨ c = ch '\n'
      · rcases h3 with h3 | h3 | h3 <;> subst h3 <;>
          simp [getTokenStep, hg, switchState, scanText, finish, hb2, hu2, store, isdigit,
            isalpha, ch_values]
      by_cases h4 : c = ch '/'
      · subst h4
        simp [getTokenStep, hg, switchState, scanText, finish, hb2, hu2, store, isdigit,
          isalpha, ch_values]
      by_cases h5 : c = ch '='
      · subst h5
        simp [getTokenStep, hg, switchState, scanText, finish, hb2, hu2, store, isdigit,
          isalpha, ch_values]
      by_cases h6 : c = ch '<'
      · subst h6
        simp [getTokenStep, hg, switchState, scanText, finish, hb2, hu2, store, isdigit,
          isalpha, ch_values]
      by_cases h7 : c = ch '>'
      · subst h7
        simp [getTokenStep, hg, switchState, scanText, finish, hb2, hu2, store, isdigit,
          isalpha, ch_values]
      by_cases h8 : c = ch '!'
      · subst h8
        simp [getTokenStep, hg, switchState, scanText, finish, hb2, hu2, store, isdigit,
          isalpha, ch_values]
      simp [getTokenStep, hg, switchState, scanText, finish, hb2, hu2, h1, h2, h3, h4, h5,
          h6, h7, h8, startSwitch_ne_ID]
    case INOVER =>
      by_cases h1 : c = ch '*'
      · simp [getTokenStep, hg, switchState, scanText, finish, hb2, hu2, h1, store]
      · simp [getTokenStep, hg, switchState, scanText, finish, hbu, huu, h1]
    case INEQ =>
      by_cases h1 : c = ch '='
      · simp [getTokenStep, hg, switchState, scanText, finish, hb2, hu2, h1]
      · simp [getTokenStep, hg, switchState, scanText, finish, hbu, huu, h1]
    case INLT =>
      by_cases h1 : c = ch '='
      · simp [getTokenStep, hg, switchState, scanText, finish, hb2, hu2, h1]
      · simp [getTokenStep, hg, switchState, scanText, finish, hbu, huu, h1]
    case INGT =>
      by_cases h1 : c = ch '='
      · simp [getTokenStep, hg, switchState, scanText, finish, hb2, hu2, h1]
      · simp [getTokenStep, hg, switchState, scanText, finish, hbu, huu, h1]
    case INNE =>
      by_cases h1 : c = ch '='
      · simp [getTokenStep, hg, switchState, scanText, finish, hb2, hu2, h1]
      · simp [getTokenStep, hg, switchState, scanText, finish, hb2, hu2, h1]
    case INNUM =>
      by_cases h1 : isdigit c = true
      · simp [getTokenStep, hg, switchState, scanText, finish, hb2, hu2, h1]
      by_cases h2 : isalpha c = true
      · simp [getTokenStep, hg, switchState, scanText, finish, hb2, hu2, h1, h2]
      by_cases hce : cur = .ERROR <;>
        simp [getTokenStep, hg, switchState, scanText, finish, hbu, huu, h1, h2, hce, store]
    case INID =>
      by_cases h1 : isalpha c = true
      · simp [getTokenStep, hg, switchState, scanText, finish, hb2, hu2, h1]
      by_cases h2 : isdigit c = true
      · simp [getTokenStep, hg, switchState, scanText, finish, hb2, hu2, h1, h2]
      by_cases hce : cur = .ERROR <;>
        simp [getTokenStep, hg, switchState, scanText, finish, hbu, huu, h1, h2, hce, store]
    case INCOMMENT =>
      by_cases h1 : c = ch '*'
      · cases r with
        | nil =>
          obtain ⟨b3, hg3, hb3, hu3, _⟩ := getNextChar_nil hb2 hu2
          simp [getTokenStep, hg, hg3, switchState, scanText, finish, hb3, hu3, h1, store,
            EOF, ch_values]
        | cons c2 r2 =>
          obtain ⟨b3, hg3, hb3, hu3, hbu3, huu3, hc3, _⟩ := getNextChar_cons hb2 hu2
          by_cases h2 : c2 = ch '/'
          · simp [getTokenStep, hg, hg3, switchState, scanText, finish, hb3, hu3, h1, h2,
              store]
            omega
          by_cases hne2 : c2 = EOF
          · subst hne2
            simp [getTokenStep, hg, hg3, switchState, scanText, finish, hb3, hu3, h1, store,
              EOF, ch_values]
          · simp [getTokenStep, hg, hg3, switchState, scanText, finish, hbu3, huu3, h1, h2,
              hne2, store]
      · by_cases hne : c = EOF
        · subst hne
          cases r <;>
            simp [getTokenStep, hg, switchState, scanText, finish, hb2, hu2, store, EOF,
              ch_values]
        · cases r <;>
            simp [getTokenStep, hg, switchState, scanText, finish, hb2, hu2, h1, hne, store]

theorem getTokenLoop_scanText (M n : Nat) (st : StateType) (cur : TokenType)
    (ts : List Int) (b : LineBuffer) (hb : WellFormed b) (hn : (unread b).length < n) :
    ∃ b2, getTokenLoop M n ⟨st, cur, ts, b⟩ =
        some ⟨.DONE, (scanText M (unread b) st cur ts).1,
          (scanText M (unread b) st cur ts).2.1, b2⟩ ∧
      WellFormed b2 ∧ unread b2 = (scanText M (unread b) st cur ts).2.2 := by
  induction n generalizing st cur ts b with
  | zero => omega
  | succ n ih =>
    by_cases hst : st = .DONE
    · subst hst
      exact ⟨b, by simp [getTokenLoop_done, scanText], hb, by simp [scanText]⟩
    rw [getTokenLoop_step M n _ hst]
    obtain ⟨hw, hs, hd⟩ := getTokenStep_scanText M st cur ts b hb hst
    rw [← hs]
    generalize getTokenStep M ⟨st, cur, ts, b⟩ = l at hw hs hd
    obtain ⟨st2, cur2, ts2, b2⟩ := l
    simp only at hw hs hd ⊢
    rcases hd with hd | hd
    · subst hd
      exact ⟨b2, by simp [getTokenLoop_done, scanText], hw, by simp [scanText]⟩
    · exact ih st2 cur2 ts2 b2 hw (by omega)

/-- The function `getToken` returns on every well-formed line buffer, and its
token is the one `scanText` reads off the unread text. -/
theorem getToken_returns (M : Nat) (cur : TokenType) (b : LineBuffer)
    (hb : WellFormed b) :
    ∃ b2, getToken M cur b =
        some ((scanText M (unread b) .START cur []).1,
          (scanText M (unread b) .START cur []).2.1, b2) ∧
      WellFormed b2 ∧ unread b2 = (scanText M (unread b) .START cur []).2.2 := by
  obtain ⟨b2, h, hw, hu⟩ :=
    getTokenLoop_scanText M ((unread b).length + 1) .START cur [] b hb (by omega)
  exact ⟨b2, by simp [getToken, h], hw, hu⟩

theorem wellFormed_openSource (text : List Int) (h : ∀ c ∈ text, 1 ≤ c ∧ c ≤ 255) :
    WellFormed (openSource text) ∧ unread (openSource text) = text.map toChar := by
  refine ⟨⟨by simp [openSource], by simp [openSource], by simp [openSource],
    by simp [openSource], ?_, by simp [openSource]⟩, ?_⟩
  · intro c hc
    simp only [openSource, List.mem_map] at hc
    obtain ⟨a, ha, rfl⟩ := hc
    exact isChar_toChar a (h a ha)
  · simp [openSource, unread]

theorem map_toChar_ascii (text : List Int) (h : ∀ c ∈ text, 0 ≤ c ∧ c ≤ 127) :
    text.map toChar = text := by
  induction text with
  | nil => rfl
  | cons a t ih =>
    have ha := h a (List.mem_cons_self _ _)
    have hc : toChar a = a := by unfold toChar; omega
    simp only [List.map_cons, hc]
    rw [ih (fun c hc => h c (List.mem_cons_of_mem _ hc))]


theorem getToken_eq_scanText (M : Nat) (cur : TokenType) (b : LineBuffer)
    (hb : WellFormed b) (t : List Int) (ht : unread b = t) :
    ∃ b2, getToken M cur b =
        some ((scanText M t .START cur []).1, (scanText M t .START cur []).2.1, b2) ∧
      WellFormed b2 ∧ unread b2 = (scanText M t .START cur []).2.2 := by
  subst ht
  exact getToken_returns M cur b hb

/-! ## Runs of characters -/

theorem scanText_whitespace (M : Nat) (cur : TokenType) (ts w t : List Int)
    (hw : ∀ c ∈ w, c = ch ' ' ∨ c = ch '\t' ∨ c = ch '\n') :
    scanText M (w ++ t) .START cur ts = scanText M t .START cur ts := by
  induction w with
  | nil => rfl
  | cons c w ih =>
    have hc := hw c (List.mem_cons_self _ _)
    have ih2 := ih (fun x hx => hw x (List.mem_cons_of_mem _ hx))
    rcases hc with rfl | rfl | rfl <;>
      simp [scanText, isdigit, isalpha, ch_values] <;>
      simpa using ih2

theorem store_alnum (M : Nat) (ts : List Int) (c : Int)
    (hc : isdigit c = true ∨ isalpha c = true) (hlen : ts.length ≤ M) :
    store M true ts c = ts ++ [c] := by
  have hmod : toChar c = c := by
    simp only [isdigit, isalpha, ch_values, decide_eq_true_eq] at hc
    unfold toChar
    omega
  have hl : (ts.length : Int) ≤ M := by exact_mod_cast hlen
  simp [store, hmod, hl]

theorem scanText_digits (M : Nat) (cur : TokenType) (d t : List Int)
    (hd : ∀ c ∈ d, isdigit c = true)
    (ht : ∀ c r, t = c :: r → isdigit c = false ∧ isalpha c = false) (ts : List Int)
    (hlen : ts.length + d.length ≤ M + 1) :
    scanText M (d ++ t) .INNUM cur ts =
      (if cur ≠ .ERROR then .NUM else cur, ts ++ d, t) := by
  induction d generalizing ts with
  | nil =>
    cases t with
    | nil => simp [scanText]
    | cons c r =>
      obtain ⟨h1, h2⟩ := ht c r rfl
      simp [scanText, h1, h2]
  | cons a d ih =>
    have ha := hd a (List.mem_cons_self _ _)
    simp only [List.length_cons] at hlen
    have hs := store_alnum M ts a (Or.inl ha) (by omega)
    have ih2 := ih (fun x hx => hd x (List.mem_cons_of_mem _ hx)) (ts ++ [a])
      (by simp only [List.length_append, List.length_singleton]; omega)
    rw [List.cons_append]
    simp only [scanText, ha, if_true, hs]
    rw [ih2]
    simp

theorem scanText_letters (M : Nat) (cur : TokenType) (w t : List Int)
    (hw : ∀ c ∈ w, isalpha c = true)
    (ht : ∀ c r, t = c :: r → isalpha c = false ∧ isdigit c = false) (ts : List Int)
    (hlen : ts.length + w.length ≤ M + 1) :
    scanText M (w ++ t) .INID cur ts =
      (if cur ≠ .ERROR then reservedLookup (ts ++ w) else cur, ts ++ w, t) := by
  induction w generalizing ts with
  | nil =>
    cases t with
    | nil => simp [scanText]
    | cons c r =>
      obtain ⟨h1, h2⟩ := ht c r rfl
      simp [scanText, h1, h2]
  | cons a w ih =>
    have ha := hw a (List.mem_cons_self _ _)
    simp only [List.length_cons] at hlen
    have hs := store_alnum M ts a (Or.inr ha) (by omega)
    have ih2 := ih (fun x hx => hw x (List.mem_cons_of_mem _ hx)) (ts ++ [a])
      (by simp only [List.length_append, List.length_singleton]; omega)
    rw [List.cons_append]
    simp only [scanText, ha, if_true, hs]
    rw [ih2]
    simp

theorem scanText_START_digits (M : Nat) (cur : TokenType) (d t : List Int)
    (hne : d ≠ []) (hd : ∀ c ∈ d, isdigit c = true)
    (ht : ∀ c r, t = c :: r → isdigit c = false ∧ isalpha c = false)
    (hlen : d.length ≤ M) :
    scanText M (d ++ t) .START cur [] = (if cur ≠ .ERROR then .NUM else cur, d, t) := by
  cases d with
  | nil => exact absurd rfl hne
  | cons a d =>
    have ha := hd a (List.mem_cons_self _ _)
    have hs := store_alnum M [] a (Or.inl ha) (by simp)
    have h2 := scanText_digits M cur d t (fun x hx => hd x (List.mem_cons_of_mem _ hx)) ht
      [a] (by simp only [List.length_cons, List.length_singleton, List.length_nil] at hlen ⊢
              omega)
    rw [List.cons_append]
    simp only [scanText, ha, if_true, hs, List.nil_append]
    rw [h2]
    simp

theorem scanText_START_letters (M : Nat) (cur : TokenType) (w t : List Int)
    (hne : w ≠ []) (hw : ∀ c ∈ w, isalpha c = true)
    (ht : ∀ c r, t = c :: r → isalpha c = false ∧ isdigit c = false)
    (hlen : w.length ≤ M) :
    scanText M (w ++ t) .START cur [] =
      (if cur ≠ .ERROR then reservedLookup w else cur, w, t) := by
  cases w with
  | nil => exact absurd rfl hne
  | cons a w =>
    have ha := hw a (List.mem_cons_self _ _)
    have hnd : isdigit a = false := by
      simp only [isdigit, isalpha, ch_values, decide_eq_true_eq,
        decide_eq_false_iff_not] at ha ⊢
      omega
    have hs := store_alnum M [] a (Or.inr ha) (by simp)
    have h2 := scanText_letters M cur w t (fun x hx => hw x (List.mem_cons_of_mem _ hx)) ht
      [a] (by simp only [List.length_cons, List.length_singleton, List.length_nil] at hlen ⊢
              omega)
    rw [List.cons_append]
    simp only [scanText, ha, hnd, if_true, hs, List.nil_append]
    rw [h2]
    simp

/-! ## Reserved words -/

theorem strcmp_eq_zero_iff (s w : List Int) (hs : ∀ c ∈ s, c ≠ 0) (hw : ∀ c ∈ w, c ≠ 0) :
    strcmp s w = 0 ↔ s = w := by
  induction s generalizing w with
  | nil =>
    cases w with
    | nil => simp [strcmp]
    | cons b t =>
      have := hw b (List.mem_cons_self _ _)
      simp [strcmp, this]
  | cons a s ih =>
    have ha := hs a (List.mem_cons_self _ _)
    cases w with
    | nil => simp [strcmp, ha]
    | cons b t =>
      by_cases hab : a = b
      · subst hab
        simp [strcmp, ha, ih t (fun x hx => hs x (List.mem_cons_of_mem _ hx))
          (fun x hx => hw x (List.mem_cons_of_mem _ hx))]
      · have : a - b ≠ 0 := by omega
        simp [strcmp, hab, this]

/-- The lookup answers `ID` exactly when the string matches no entry of the table
character for character. -/
theorem reservedLookup_eq_ID_iff (w : List Int) (hw : ∀ c ∈ w, c ≠ 0) :
    reservedLookup w = .ID ↔
      w ∉ [str "if", str "else", str "while", str "return", str "int", str "void"] := by
  have e : ∀ k ∈ [str "if", str "else", str "while", str "return", str "int", str "void"],
      (strcmp w k = 0 ↔ w = k) := by
    intro k hk
    refine strcmp_eq_zero_iff w k hw ?_
    revert k
    decide
  have e1 := e (str "if") (by simp)
  have e2 := e (str "else") (by simp)
  have e3 := e (str "while") (by simp)
  have e4 := e (str "return") (by simp)
  have e5 := e (str "int") (by simp)
  have e6 := e (str "void") (by simp)
  simp only [reservedLookup, MAXRESERVED, reservedWords, List.take_succ_cons, List.take_zero,
    reservedLookupFrom, e1, e2, e3, e4, e5, e6, List.mem_cons, List.mem_singleton,
    List.not_mem_nil, or_false, not_or]
  split_ifs <;> simp_all

/-! ## Operators -/

/-- C1: operator maximal munch with one character of lookahead.  On a text that
begins with `<`, `>`, `=` or `!` followed by `=`, `getToken` returns `LE`, `GE`,
`EQ`, `NE` and has consumed both characters.  On `<`, `>`, `=` followed by another
character, and on `/` followed by a character other than `*`, it returns `LT`,
`GT`, `ASSIGN`, `OVER` and the following character is the one the next
`getNextChar` returns; when the operator is the last character of the input, the
next `getToken` returns `ENDFILE`. -/
theorem operator_maximal_munch (M : Nat) (cur : TokenType) (b : LineBuffer)
    (hb : WellFormed b) :
    (∀ op two one, (op, two, one) ∈
        [(ch '<', TokenType.LE, TokenType.LT), (ch '>', TokenType.GE, TokenType.GT),
         (ch '=', TokenType.EQ, TokenType.ASSIGN)] →
      (∀ r, unread b = op :: ch '=' :: r →
        ∃ lex b2, getToken M cur b = some (two, lex, b2) ∧ unread b2 = r) ∧
      (∀ x r, x ≠ ch '=' → unread b = op :: x :: r →
        ∃ lex b2, getToken M cur b = some (one, lex, b2) ∧ unread b2 = x :: r ∧
          (getNextChar b2).1 = x) ∧
      (unread b = [op] →
        ∃ lex b2, getToken M cur b = some (one, lex, b2) ∧
          ∀ cur2, ∃ lex2 b3, getToken M cur2 b2 = some (TokenType.ENDFILE, lex2, b3))) ∧
    (∀ r, unread b = ch '!' :: ch '=' :: r →
      ∃ lex b2, getToken M cur b = some (TokenType.NE, lex, b2) ∧ unread b2 = r) ∧
    (∀ x r, x ≠ ch '*' → unread b = ch '/' :: x :: r →
      ∃ lex b2, getToken M cur b = some (TokenType.OVER, lex, b2) ∧ unread b2 = x :: r ∧
        (getNextChar b2).1 = x) ∧
    (unread b = [ch '/'] →
      ∃ lex b2, getToken M cur b = some (TokenType.OVER, lex, b2) ∧
        ∀ cur2, ∃ lex2 b3, getToken M cur2 b2 = some (TokenType.ENDFILE, lex2, b3)) := by
  have next : ∀ (b2 : LineBuffer) (x : Int) (r : List Int), WellFormed b2 →
      unread b2 = x :: r → (getNextChar b2).1 = x := by
    intro b2 x r hw hu
    obtain ⟨b3, hg, _⟩ := getNextChar_cons hw hu
    rw [hg]
  have last : ∀ (b2 : LineBuffer), WellFormed b2 → unread b2 = [] →
      ∀ cur2, ∃ lex2 b3, getToken M cur2 b2 = some (TokenType.ENDFILE, lex2, b3) := by
    intro b2 hw hu cur2
    obtain ⟨b3, hg, _, _⟩ := getToken_eq_scanText M cur2 b2 hw _ hu
    exact ⟨_, b3, by simpa [scanText] using hg⟩
  refine ⟨?_, ?_, ?_, ?_⟩
  · intro op two one hmem
    simp only [List.mem_cons, Prod.mk.injEq, List.mem_singleton, List.not_mem_nil,
      or_false] at hmem
    refine ⟨?_, ?_, ?_⟩
    · intro r hr
      obtain ⟨b2, hg, hw, hu⟩ := getToken_eq_scanText M cur b hb _ hr
      rcases hmem with ⟨rfl, rfl, rfl⟩ | ⟨rfl, rfl, rfl⟩ | ⟨rfl, rfl, rfl⟩ <;>
        simp [scanText, isdigit, isalpha, ch_values] at hg hu <;>
        exact ⟨_, b2, hg, hu⟩
    · intro x r hx hr
      obtain ⟨b2, hg, hw, hu⟩ := getToken_eq_scanText M cur b hb _ hr
      rcases hmem with ⟨rfl, rfl, rfl⟩ | ⟨rfl, rfl, rfl⟩ | ⟨rfl, rfl, rfl⟩ <;>
        simp [scanText, isdigit, isalpha, ch_values] at hg hu hx <;>
        simp [hx] at hg hu <;>
        exact ⟨_, b2, hg, hu, next b2 x r hw hu⟩
    · intro hr
      obtain ⟨b2, hg, hw, hu⟩ := getToken_eq_scanText M cur b hb _ hr
      rcases hmem with ⟨rfl, rfl, rfl⟩ | ⟨rfl, rfl, rfl⟩ | ⟨rfl, rfl, rfl⟩ <;>
        simp [scanText, isdigit, isalpha, ch_values] at hg hu <;>
        exact ⟨_, b2, hg, last b2 hw hu⟩
  · intro r hr
    obtain ⟨b2, hg, hw, hu⟩ := getToken_eq_scanText M cur b hb _ hr
    simp [scanText, isdigit, isalpha, ch_values] at hg hu
    exact ⟨_, b2, hg, hu⟩
  · intro x r hx hr
    obtain ⟨b2, hg, hw, hu⟩ := getToken_eq_scanText M cur b hb _ hr
    simp [scanText, isdigit, isalpha, ch_values] at hg hu hx
    simp [hx] at hg hu
    exact ⟨_, b2, hg, hu, next b2 x r hw hu⟩
  · intro hr
    obtain ⟨b2, hg, hw, hu⟩ := getToken_eq_scanText M cur b hb _ hr
    simp [scanText, isdigit, isalpha, ch_values] at hg hu
    exact ⟨_, b2, hg, last b2 hw hu⟩

theorem operator_maximal_munch_witness :
    WellFormed (openSource (str "<=x")) ∧
    ∃ lex b2, getToken 40 .ENDFILE (openSource (str "<=x")) = some (.LE, lex, b2) ∧
      unread b2 = str "x" :=
  ⟨by decide,
   ((operator_maximal_munch 40 .ENDFILE (openSource (str "<=x")) (by decide)).1
      (ch '<') .LE .LT (by simp)).1 (str "x") (by decide)⟩

/-- C2, as stated, fails: on the input `<=` the lexeme left in `tokenString` is
`=` and not `<=`, and on `<;` it is the pushed-back `;` and not `<`. -/
theorem operator_lexeme_counterexample :
    getToken 40 .ENDFILE (openSource (str "<=")) =
        some (.LE, str "=", ⟨[], str "<=", 2, 2, false, 1⟩) ∧
      str "=" ≠ str "<=" ∧
    getToken 40 .ENDFILE (openSource (str "<;")) =
        some (.LT, str ";", ⟨[], str "<;", 1, 2, false, 1⟩) ∧
      str ";" ≠ str "<" := by
  decide

/-- C2, amended: on a text that begins with `<=`, `>=`, `==` or `!=` the lexeme
that `getToken` leaves in `tokenString` is `=`, the operator without its first
character, which the `START` case does not save. -/
theorem two_character_operator_lexeme (M : Nat) (cur : TokenType) (b : LineBuffer)
    (hb : WellFormed b) (op : Int) (r : List Int)
    (hop : op ∈ [ch '<', ch '>', ch '=', ch '!'])
    (hr : unread b = op :: ch '=' :: r) :
    ∃ tok b2, getToken M cur b = some (tok, str "=", b2) := by
  obtain ⟨b2, hg, _, _⟩ := getToken_eq_scanText M cur b hb _ hr
  simp only [List.mem_cons, List.mem_singleton, List.not_mem_nil, or_false] at hop
  have hs : str "=" = [61] := by decide
  rcases hop with rfl | rfl | rfl | rfl <;>
    simp [scanText, isdigit, isalpha, ch_values, store] at hg <;>
    exact ⟨_, b2, by rw [hs]; exact hg⟩

theorem two_character_operator_lexeme_witness :
    WellFormed (openSource (str ">= 1")) ∧ ch '>' ∈ [ch '<', ch '>', ch '=', ch '!'] ∧
    unread (openSource (str ">= 1")) = ch '>' :: ch '=' :: str " 1" ∧
    ∃ tok b2, getToken 40 .ENDFILE (openSource (str ">= 1")) = some (tok, str "=", b2) :=
  ⟨by decide, by decide, by decide,
   two_character_operator_lexeme 40 .ENDFILE (openSource (str ">= 1")) (by decide)
     (ch '>') (str " 1") (by decide) (by decide)⟩

/-! ## White space and comments -/

/-- C6: on an input that consists only of spaces, tabs and newlines, the empty
input included, `getToken` returns `ENDFILE` with an empty lexeme. -/
theorem whitespace_only_is_ENDFILE (M : Nat) (cur : TokenType) (b : LineBuffer)
    (hb : WellFormed b)
    (hws : ∀ c ∈ unread b, c = ch ' ' ∨ c = ch '\t' ∨ c = ch '\n') :
    ∃ b2, getToken M cur b = some (.ENDFILE, [], b2) := by
  obtain ⟨b2, hg, _, _⟩ := getToken_eq_scanText M cur b hb (unread b ++ []) (by simp)
  rw [scanText_whitespace M cur [] (unread b) [] hws] at hg
  exact ⟨b2, by simpa [scanText] using hg⟩

theorem whitespace_only_is_ENDFILE_witness :
    WellFormed (openSource (str " \t\n\n  ")) ∧
    (∀ c ∈ unread (openSource (str " \t\n\n  ")), c = ch ' ' ∨ c = ch '\t' ∨ c = ch '\n') ∧
    ∃ b2, getToken 40 .ENDFILE (openSource (str " \t\n\n  ")) = some (.ENDFILE, [], b2) :=
  ⟨by decide, by decide,
   whitespace_only_is_ENDFILE 40 .ENDFILE (openSource (str " \t\n\n  ")) (by decide)
     (by decide)⟩

/-- C9: on an input that begins with `!` followed by the end of the input or by a
character other than `=`, `getToken` returns `ERROR`. -/
theorem lone_bang_is_ERROR (M : Nat) (cur : TokenType) (b : LineBuffer)
    (hb : WellFormed b)
    (h : unread b = [ch '!'] ∨ ∃ c r, c ≠ ch '=' ∧ unread b = ch '!' :: c :: r) :
    ∃ lex b2, getToken M cur b = some (.ERROR, lex, b2) := by
  rcases h with h | ⟨c, r, hc, h⟩
  · obtain ⟨b2, hg, _, _⟩ := getToken_eq_scanText M cur b hb _ h
    simp [scanText, isdigit, isalpha, ch_values] at hg
    exact ⟨_, b2, hg⟩
  · obtain ⟨b2, hg, _, _⟩ := getToken_eq_scanText M cur b hb _ h
    simp [scanText, isdigit, isalpha, ch_values] at hg hc
    simp [hc] at hg
    exact ⟨_, b2, hg⟩

theorem lone_bang_is_ERROR_witness :
    WellFormed (openSource (str "!")) ∧
    (unread (openSource (str "!")) = [ch '!'] ∨
      ∃ c r, c ≠ ch '=' ∧ unread (openSource (str "!")) = ch '!' :: c :: r) ∧
    ∃ lex b2, getToken 40 .ENDFILE (openSource (str "!")) = some (.ERROR, lex, b2) :=
  ⟨by decide, Or.inl (by decide),
   lone_bang_is_ERROR 40 .ENDFILE (openSource (str "!")) (by decide) (Or.inl (by decide))⟩

/-- When `currentToken` does not hold `ERROR` on entry, a run of digits followed
by the end of the input or by a character that is no digit and no letter is a
`NUM` whose lexeme is the run, and the following character stays unread. -/
theorem number_when_not_ERROR (M : Nat) (cur : TokenType) (b : LineBuffer)
    (d t : List Int) (hb : WellFormed b) (hcur : cur ≠ .ERROR) (hne : d ≠ [])
    (hd : ∀ c ∈ d, isdigit c = true) (hlen : d.length ≤ M)
    (ht : ∀ c r, t = c :: r → isdigit c = false ∧ isalpha c = false)
    (h : unread b = d ++ t) :
    ∃ b2, getToken M cur b = some (.NUM, d, b2) ∧ unread b2 = t := by
  obtain ⟨b2, hg, _, hu⟩ := getToken_eq_scanText M cur b hb _ h
  rw [scanText_START_digits M cur d t hne hd ht hlen] at hg hu
  exact ⟨b2, by simpa [hcur] using hg, hu⟩

/-- When `currentToken` does not hold `ERROR` on entry, a run of letters that is
not a reserved word, followed by the end of the input or by a character that is
no letter and no digit, is an `ID` whose lexeme is the run, and the following
character stays unread. -/
theorem identifier_when_not_ERROR (M : Nat) (cur : TokenType) (b : LineBuffer)
    (w t : List Int) (hb : WellFormed b) (hcur : cur ≠ .ERROR) (hne : w ≠ [])
    (hw : ∀ c ∈ w, isalpha c = true) (hlen : w.length ≤ M)
    (hkw : w ∉ [str "if", str "else", str "while", str "return", str "int", str "void"])
    (ht : ∀ c r, t = c :: r → isalpha c = false ∧ isdigit c = false)
    (h : unread b = w ++ t) :
    ∃ b2, getToken M cur b = some (.ID, w, b2) ∧ unread b2 = t := by
  obtain ⟨b2, hg, _, hu⟩ := getToken_eq_scanText M cur b hb _ h
  rw [scanText_START_letters M cur w t hne hw ht hlen] at hg hu
  have hnul : ∀ c ∈ w, c ≠ 0 := by
    intro c hc h0
    have := hw c hc
    rw [h0] at this
    revert this
    decide
  have hid := (reservedLookup_eq_ID_iff w hnul).mpr hkw
  exact ⟨b2, by simpa [hcur, hid] using hg, hu⟩

/-- When `currentToken` does not hold `ERROR` on entry and `MAXTOKENLEN` is at
least the length of the longest reserved word, a reserved word followed by
the end of the input or by a character that is no letter and no digit has the
kind of the table, not `ID`, and the word as its lexeme. -/
theorem keyword_when_not_ERROR (M : Nat) (cur : TokenType) (b : LineBuffer)
    (kw t : List Int) (tok : TokenType) (hb : WellFormed b) (hcur : cur ≠ .ERROR)
    (hM : 6 ≤ M) (hk : (kw, tok) ∈ reservedWords)
    (ht : ∀ c r, t = c :: r → isalpha c = false ∧ isdigit c = false)
    (h : unread b = kw ++ t) :
    ∃ b2, getToken M cur b = some (tok, kw, b2) ∧ unread b2 = t ∧ tok ≠ .ID := by
  obtain ⟨b2, hg, _, hu⟩ := getToken_eq_scanText M cur b hb _ h
  have key : ∀ p ∈ reservedWords, p.1 ≠ [] ∧ (∀ c ∈ p.1, isalpha c = true) ∧
      p.1.length ≤ 6 ∧ reservedLookup p.1 = p.2 ∧ p.2 ≠ .ID := by
    decide
  obtain ⟨k1, k2, k3, k4, k5⟩ := key (kw, tok) hk
  simp only at k1 k2 k3 k4 k5
  rw [scanText_START_letters M cur kw t k1 k2 ht (by omega)] at hg hu
  exact ⟨b2, by simpa [hcur, k4] using hg, hu, k5⟩

/-- C3, failing input: on the text `if`, with `ERROR` as the value that
`currentToken` holds on entry, `getToken` returns `ERROR` and not `IF`. -/
theorem keyword_read_as_ERROR :
    getToken 40 .ERROR (openSource (str "if")) =
      some (.ERROR, str "if", ⟨[], str "if", 2, 2, true, 2⟩) := by
  decide

/-- C4, failing input: on the text `foobar`, with `ERROR` as the value that
`currentToken` holds on entry, `getToken` returns `ERROR` and not `ID`. -/
theorem identifier_read_as_ERROR :
    getToken 40 .ERROR (openSource (str "foobar")) =
      some (.ERROR, str "foobar", ⟨[], str "foobar", 6, 6, true, 2⟩) := by
  decide

/-- C5, failing input: on the text `123`, with `ERROR` as the value that
`currentToken` holds on entry, `getToken` returns `ERROR` and not `NUM`. -/
theorem number_read_as_ERROR :
    getToken 40 .ERROR (openSource (str "123")) =
      some (.ERROR, str "123", ⟨[], str "123", 3, 3, true, 2⟩) := by
  decide

/-! ## The line buffer: end of input, pushback, line numbers -/

/-- A line buffer on which the end of input has been met: the flag is set, the
cursor is not inside the line and the file has no character left. -/
theorem exhausted_applyCall (k : Call) (b : LineBuffer)
    (h : b.EOF_flag = true ∧ ¬ (b.linepos < b.bufsize) ∧ b.source = []) :
    (getNextChar b).1 = EOF ∧ ungetNextChar b = b ∧
    (applyCall k b).linepos = b.linepos ∧ (applyCall k b).bufsize = b.bufsize ∧
    (applyCall k b).lineBuf = b.lineBuf ∧
    ((applyCall k b).EOF_flag = true ∧ ¬ ((applyCall k b).linepos < (applyCall k b).bufsize) ∧
      (applyCall k b).source = []) := by
  obtain ⟨h1, h2, h3⟩ := h
  have hg : getNextChar b = (EOF, { b with EOF_flag := true, lineno := intSucc b.lineno }) := by
    simp [getNextChar, h2, h3, fgets]
  have hu : ungetNextChar b = b := by simp [ungetNextChar, h1]
  cases k with
  | get => simp [applyCall, hg, hu, h2, h3]
  | unget => simp [applyCall, hg, hu, h1, h2, h3]

theorem exhausted_applyCalls (ks : List Call) (b : LineBuffer)
    (h : b.EOF_flag = true ∧ ¬ (b.linepos < b.bufsize) ∧ b.source = []) :
    (applyCalls ks b).linepos = b.linepos ∧ (applyCalls ks b).bufsize = b.bufsize ∧
    (applyCalls ks b).lineBuf = b.lineBuf ∧ (getNextChar (applyCalls ks b)).1 = EOF ∧
    ungetNextChar (applyCalls ks b) = applyCalls ks b := by
  induction ks generalizing b with
  | nil =>
    obtain ⟨h1, h2, _⟩ := exhausted_applyCall .get b h
    exact ⟨rfl, rfl, rfl, h1, h2⟩
  | cons k ks ih =>
    obtain ⟨_, _, e1, e2, e3, h2⟩ := exhausted_applyCall k b h
    obtain ⟨i1, i2, i3, i4, i5⟩ := ih (applyCall k b) h2
    exact ⟨by rw [← e1]; exact i1, by rw [← e2]; exact i2, by rw [← e3]; exact i3, i4, i5⟩

/-- C14: the end of input is sticky.  On an exhausted source, where the line
held has been read to its end and the file has no character left, `getNextChar`
returns `EOF`; after that, following any sequence of calls of `getNextChar` and
`ungetNextChar`, the fields `linepos`, `bufsize` and `lineBuf` are as they were,
`ungetNextChar` changes nothing, and `getNextChar` returns `EOF` again. -/
theorem end_of_input_is_sticky (b : LineBuffer) (hx : ¬ (b.linepos < b.bufsize))
    (hs : b.source = []) (ks : List Call) :
    (getNextChar b).1 = EOF ∧
    (applyCalls ks (getNextChar b).2).linepos = (getNextChar b).2.linepos ∧
    (applyCalls ks (getNextChar b).2).bufsize = (getNextChar b).2.bufsize ∧
    (applyCalls ks (getNextChar b).2).lineBuf = (getNextChar b).2.lineBuf ∧
    (getNextChar (applyCalls ks (getNextChar b).2)).1 = EOF ∧
    ungetNextChar (applyCalls ks (getNextChar b).2) = applyCalls ks (getNextChar b).2 := by
  have hg : getNextChar b = (EOF, { b with EOF_flag := true, lineno := intSucc b.lineno }) := by
    simp [getNextChar, hx, hs, fgets]
  rw [hg]
  exact ⟨rfl, exhausted_applyCalls ks _ ⟨rfl, hx, hs⟩⟩

theorem end_of_input_is_sticky_witness :
    WellFormed (applyCalls [.get, .get] (openSource (str "ab"))) ∧
    ¬ ((applyCalls [.get, .get] (openSource (str "ab"))).linepos <
      (applyCalls [.get, .get] (openSource (str "ab"))).bufsize) ∧
    (applyCalls [.get, .get] (openSource (str "ab"))).source = [] ∧
    (getNextChar (applyCalls [.get, .get] (openSource (str "ab")))).1 = EOF ∧
    (getNextChar (applyCalls [.unget, .get, .unget, .unget]
      (getNextChar (applyCalls [.get, .get] (openSource (str "ab")))).2)).1 = EOF :=
  ⟨by decide, by decide, by decide,
   (end_of_input_is_sticky (applyCalls [.get, .get] (openSource (str "ab"))) (by decide)
      (by decide) []).1,
   (end_of_input_is_sticky (applyCalls [.get, .get] (openSource (str "ab"))) (by decide)
      (by decide) [.unget, .get, .unget, .unget]).2.2.2.2.1⟩

/-- C15, as stated, fails.  On the file `"\0\nb"` the first
`getNextChar`, from a state with `0 <= linepos <= bufsize`, returns the NUL that
starts the line, which is not `EOF`; `strlen` gives `bufsize = 0`, so after
`ungetNextChar` the next `getNextChar` reads a new line and returns `b`, on line
2.  And in a state with `EOF_flag` set `ungetNextChar` does nothing, so that the
next `getNextChar` returns the character after `c`. -/
theorem pushback_round_trip_counterexample :
    (InRange (openSource [0, ch '\n', ch 'b']) ∧
      (getNextChar (openSource [0, ch '\n', ch 'b'])).1 = 0 ∧ (0 : Int) ≠ EOF ∧
      (getNextChar (openSource [0, ch '\n', ch 'b'])).2 =
        ⟨[ch 'b'], [0, ch '\n'], 1, 0, false, 1⟩ ∧
      getNextChar (ungetNextChar (getNextChar (openSource [0, ch '\n', ch 'b'])).2) =
        (ch 'b', ⟨[], [ch 'b'], 1, 1, false, 2⟩)) ∧
    (InRange ⟨[], str "ab", 0, 2, true, 1⟩ ∧
      getNextChar ⟨[], str "ab", 0, 2, true, 1⟩ = (ch 'a', ⟨[], str "ab", 1, 2, true, 1⟩) ∧
      ch 'a' ≠ EOF ∧
      getNextChar (ungetNextChar (getNextChar ⟨[], str "ab", 0, 2, true, 1⟩).2) =
        (ch 'b', ⟨[], str "ab", 2, 2, true, 1⟩)) := by
  refine ⟨⟨by decide, by decide, by decide, by decide, by decide⟩,
    ⟨by decide, by decide, by decide, by decide⟩⟩

/-- C15, amended: the pushback round trip.  From a line buffer with
`0 <= linepos <= bufsize` on which `EOF_flag` is not set, when `getNextChar`
returns a character other than `EOF` and other than NUL, `ungetNextChar`
followed by `getNextChar` returns that character again and ends in the line
buffer state of the first `getNextChar`: the same line, `linepos`, `bufsize` and
`lineno`, also when the first `getNextChar` read a new line. -/
theorem pushback_round_trip (b : LineBuffer) (_hr : InRange b) (hf : b.EOF_flag = false)
    (hc : (getNextChar b).1 ≠ EOF) (h0 : (getNextChar b).1 ≠ 0) :
    getNextChar (ungetNextChar (getNextChar b).2) = ((getNextChar b).1, (getNextChar b).2) := by
  by_cases hlt : b.linepos < b.bufsize
  · have hg : getNextChar b =
        (b.lineBuf.getD b.linepos.toNat 0, { b with linepos := b.linepos + 1 }) := by
      simp [getNextChar, hlt]
    have hu : ungetNextChar { b with linepos := b.linepos + 1 } = b := by
      cases b
      simp only at hf
      simp [ungetNextChar, hf]
    rw [hg]
    simp only [hu, hg]
  · cases hfg : fgets (BUFLEN - 1) b.source with
    | none =>
      exfalso
      apply hc
      simp [getNextChar, hlt, hfg]
    | some p =>
      obtain ⟨line, src⟩ := p
      have hg : getNextChar b =
          (line.getD 0 0,
            { source := src, lineBuf := line, linepos := 1, bufsize := strlen line,
              EOF_flag := b.EOF_flag, lineno := intSucc b.lineno }) := by
        simp [getNextChar, hlt, hfg]
      rw [hg] at h0 ⊢
      cases line with
      | nil => simp at h0
      | cons c l =>
        simp only [List.getD_cons_zero] at h0 ⊢
        have hlen : 0 < strlen (c :: l) := by
          simp [strlen, List.takeWhile_cons, h0]
        simp [ungetNextChar, hf, getNextChar, hlen]

theorem pushback_round_trip_witness :
    InRange (applyCalls [.get, .get, .get] (openSource (str "ab\ncd"))) ∧
    (applyCalls [.get, .get, .get] (openSource (str "ab\ncd"))).EOF_flag = false ∧
    (getNextChar (applyCalls [.get, .get, .get] (openSource (str "ab\ncd")))).1 = ch 'c' ∧
    getNextChar (ungetNextChar
        (getNextChar (applyCalls [.get, .get, .get] (openSource (str "ab\ncd")))).2) =
      (ch 'c', ⟨[], str "cd", 1, 2, false, 2⟩) :=
  ⟨by decide, by decide, by decide,
   (pushback_round_trip (applyCalls [.get, .get, .get] (openSource (str "ab\ncd")))
      (by decide) (by decide) (by decide) (by decide)).trans (by decide)⟩

theorem intSucc_of_belowIntMax (n : Int) (h1 : INT_MIN ≤ n) (h2 : n < INT_MAX) :
    intSucc n = n + 1 := by
  unfold INT_MIN at h1
  unfold INT_MAX at h2
  unfold intSucc
  omega

theorem getNextChar_lineno (b : LineBuffer) (h : BelowIntMax b) :
    b.lineno ≤ (getNextChar b).2.lineno := by
  have hs := intSucc_of_belowIntMax b.lineno h.1 h.2
  unfold getNextChar
  by_cases hlt : b.linepos < b.bufsize
  · simp [hlt]
  · cases hfg : fgets (BUFLEN - 1) b.source with
    | none => simp [hlt, hs]
    | some p => simp [hlt, hs]

theorem ungetNextChar_lineno (b : LineBuffer) : (ungetNextChar b).lineno = b.lineno := by
  unfold ungetNextChar
  split <;> rfl

theorem applyCalls_lineno (ks : List Call) (b : LineBuffer) (h : Along BelowIntMax ks b) :
    b.lineno ≤ (applyCalls ks b).lineno := by
  induction ks generalizing b with
  | nil => exact le_refl _
  | cons k ks ih =>
    have h1 : b.lineno ≤ (applyCall k b).lineno := by
      cases k with
      | get => exact getNextChar_lineno b h.1
      | unget => exact le_of_eq (ungetNextChar_lineno b).symm
    exact le_trans h1 (ih (applyCall k b) h.2)

theorem applyCalls_append (ks js : List Call) (b : LineBuffer) :
    applyCalls (ks ++ js) b = applyCalls js (applyCalls ks b) := by
  induction ks generalizing b with
  | nil => rfl
  | cons k ks ih => exact ih (applyCall k b)

theorem switchState_buf (st : StateType) (cur : TokenType) (c : Int) (b : LineBuffer) :
    (switchState st cur c b).buf = applyCalls (switchCalls st c b) b := by
  cases st <;> simp only [switchState, switchCalls] <;> (try split_ifs) <;> rfl

theorem getTokenStep_buf (M : Nat) (l : Loop) :
    (getTokenStep M l).buf = applyCalls (stepCalls l) l.buf := by
  simp only [getTokenStep, stepCalls, applyCalls, applyCall]
  exact switchState_buf _ _ _ _

theorem getTokenLoop_buf (M fuel : Nat) (l l2 : Loop)
    (h : getTokenLoop M fuel l = some l2) :
    l2.buf = applyCalls (loopCalls M fuel l) l.buf := by
  induction fuel generalizing l with
  | zero =>
    by_cases hd : l.state = .DONE
    · simp [getTokenLoop, hd] at h
      subst h
      rfl
    · simp [getTokenLoop, hd] at h
  | succ n ih =>
    by_cases hd : l.state = .DONE
    · simp [getTokenLoop, hd] at h
      subst h
      simp [loopCalls, hd, applyCalls]
    · simp only [getTokenLoop, hd, if_false] at h
      rw [ih _ h]
      simp only [loopCalls, hd, if_false, applyCalls_append, getTokenStep_buf]

theorem getToken_buf (M : Nat) (cur : TokenType) (b : LineBuffer)
    (r : TokenType × List Int × LineBuffer) (h : getToken M cur b = some r) :
    r.2.2 = applyCalls (getTokenCalls M cur b) b := by
  simp only [getToken, Option.map_eq_some'] at h
  obtain ⟨l2, hl, rfl⟩ := h
  exact getTokenLoop_buf M _ _ l2 hl

/-- C17, as stated, fails: `lineno` is an `int`, and at `INT_MAX` the
`lineno++` of `getNextChar` wraps to `INT_MIN`.  In the state reached when
`getNextChar` has been called `INT_MAX` times at the end of the input, one more
call, and so one more call of `getToken`, decreases `lineno`. -/
theorem lineno_wraps_counterexample :
    WellFormed ⟨[], [], 0, 0, true, INT_MAX⟩ ∧
    (getNextChar ⟨[], [], 0, 0, true, INT_MAX⟩).2.lineno = INT_MIN ∧
    getToken 40 .ENDFILE ⟨[], [], 0, 0, true, INT_MAX⟩ =
      some (.ENDFILE, [], ⟨[], [], 0, 0, true, INT_MIN⟩) ∧
    INT_MIN < INT_MAX := by
  refine ⟨by decide, by decide, by decide, by decide⟩

/-- C17, amended: line numbers do not decrease while `lineno` stays below `INT_MAX`.
From a state whose `lineno` is an `int` below `INT_MAX`, `getNextChar` does not
decrease `lineno`; `ungetNextChar` leaves it as it is; and when `getToken`
returns, `lineno` is at least what it was on entry, which is its value when the
previous call returned, provided `lineno` is below `INT_MAX` at each call that
`getToken` makes to the line buffer.  On a well-formed line buffer `getToken`
does return. -/
theorem lineno_monotone :
    (∀ b : LineBuffer, BelowIntMax b → b.lineno ≤ (getNextChar b).2.lineno) ∧
    (∀ b : LineBuffer, (ungetNextChar b).lineno = b.lineno) ∧
    (∀ (M : Nat) (cur : TokenType) (b : LineBuffer) (r : TokenType × List Int × LineBuffer),
      Along BelowIntMax (getTokenCalls M cur b) b →
      getToken M cur b = some r → b.lineno ≤ r.2.2.lineno) ∧
    (∀ (M : Nat) (cur : TokenType) (b : LineBuffer), WellFormed b →
      Along BelowIntMax (getTokenCalls M cur b) b →
      ∃ tok lex b2, getToken M cur b = some (tok, lex, b2) ∧ b.lineno ≤ b2.lineno) := by
  have h3 : ∀ (M : Nat) (cur : TokenType) (b : LineBuffer)
      (r : TokenType × List Int × LineBuffer),
      Along BelowIntMax (getTokenCalls M cur b) b →
      getToken M cur b = some r → b.lineno ≤ r.2.2.lineno := by
    intro M cur b r ha h
    rw [getToken_buf M cur b r h]
    exact applyCalls_lineno _ b ha
  refine ⟨getNextChar_lineno, ungetNextChar_lineno, h3, ?_⟩
  intro M cur b hb ha
  obtain ⟨b2, hg, _, _⟩ := getToken_returns M cur b hb
  exact ⟨_, _, b2, hg, h3 M cur b _ ha hg⟩

theorem lineno_monotone_witness :
    WellFormed (openSource (str "a\n\nb")) ∧
    Along BelowIntMax (getTokenCalls 40 .ENDFILE (applyCalls [.get] (openSource (str "a\n\nb"))))
      (applyCalls [.get] (openSource (str "a\n\nb"))) ∧
    getToken 40 .ENDFILE (applyCalls [.get] (openSource (str "a\n\nb"))) =
      some (.ID, str "b", ⟨[], str "b", 1, 1, true, 4⟩) ∧
    (applyCalls [.get] (openSource (str "a\n\nb"))).lineno ≤ 4 :=
  ⟨by decide, by decide, by decide,
   lineno_monotone.2.2.1 40 .ENDFILE (applyCalls [.get] (openSource (str "a\n\nb")))
     (.ID, str "b", ⟨[], str "b", 1, 1, true, 4⟩) (by decide) (by decide)⟩

/-! ## Malformed literals -/

theorem scanText_INNUM_error (M : Nat) (a t : List Int)
    (ha : ∀ c ∈ a, isdigit c = true ∨ isalpha c = true)
    (ht : ∀ c r, t = c :: r → isdigit c = false ∧ isalpha c = false) (ts : List Int)
    (hlen : ts.length + a.length ≤ M + 1) :
    scanText M (a ++ t) .INNUM .ERROR ts = (.ERROR, ts ++ a, t) := by
  induction a generalizing ts with
  | nil =>
    cases t with
    | nil => simp [scanText]
    | cons c r =>
      obtain ⟨h1, h2⟩ := ht c r rfl
      simp [scanText, h1, h2]
  | cons x a ih =>
    have hx := ha x (List.mem_cons_self _ _)
    simp only [List.length_cons] at hlen
    have hs := store_alnum M ts x hx (by omega)
    have ih2 := ih (fun y hy => ha y (List.mem_cons_of_mem _ hy)) (ts ++ [x])
      (by simp only [List.length_append, List.length_singleton]; omega)
    rw [List.cons_append]
    by_cases hd : isdigit x = true
    · simp only [scanText, hd, if_true, hs]
      rw [ih2]
      simp
    · have hal : isalpha x = true := hx.resolve_left hd
      simp only [scanText, hd, hal, if_true, hs]
      rw [ih2]
      simp

theorem scanText_INID_error (M : Nat) (a t : List Int)
    (ha : ∀ c ∈ a, isdigit c = true ∨ isalpha c = true)
    (ht : ∀ c r, t = c :: r → isdigit c = false ∧ isalpha c = false) (ts : List Int)
    (hlen : ts.length + a.length ≤ M + 1) :
    scanText M (a ++ t) .INID .ERROR ts = (.ERROR, ts ++ a, t) := by
  induction a generalizing ts with
  | nil =>
    cases t with
    | nil => simp [scanText]
    | cons c r =>
      obtain ⟨h1, h2⟩ := ht c r rfl
      simp [scanText, h1, h2]
  | cons x a ih =>
    have hx := ha x (List.mem_cons_self _ _)
    simp only [List.length_cons] at hlen
    have hs := store_alnum M ts x hx (by omega)
    have ih2 := ih (fun y hy => ha y (List.mem_cons_of_mem _ hy)) (ts ++ [x])
      (by simp only [List.length_append, List.length_singleton]; omega)
    rw [List.cons_append]
    by_cases hal : isalpha x = true
    · simp only [scanText, hal, if_true, hs]
      rw [ih2]
      simp
    · have hd : isdigit x = true := hx.resolve_right hal
      simp only [scanText, hd, hal, if_true, hs]
      rw [ih2]
      simp

theorem scanText_INNUM_prefix (M : Nat) (cur : TokenType) (d u : List Int)
    (hd : ∀ c ∈ d, isdigit c = true) (ts : List Int)
    (hlen : ts.length + d.length ≤ M + 1) :
    scanText M (d ++ u) .INNUM cur ts = scanText M u .INNUM cur (ts ++ d) := by
  induction d generalizing ts with
  | nil => simp
  | cons x d ih =>
    have hx := hd x (List.mem_cons_self _ _)
    simp only [List.length_cons] at hlen
    have hs := store_alnum M ts x (Or.inl hx) (by omega)
    have ih2 := ih (fun y hy => hd y (List.mem_cons_of_mem _ hy)) (ts ++ [x])
      (by simp only [List.length_append, List.length_singleton]; omega)
    rw [List.cons_append]
    simp only [scanText, hx, if_true, hs]
    rw [ih2]
    simp

theorem scanText_INID_prefix (M : Nat) (cur : TokenType) (w u : List Int)
    (hw : ∀ c ∈ w, isalpha c = true) (ts : List Int)
    (hlen : ts.length + w.length ≤ M + 1) :
    scanText M (w ++ u) .INID cur ts = scanText M u .INID cur (ts ++ w) := by
  induction w generalizing ts with
  | nil => simp
  | cons x w ih =>
    have hx := hw x (List.mem_cons_self _ _)
    simp only [List.length_cons] at hlen
    have hs := store_alnum M ts x (Or.inr hx) (by omega)
    have ih2 := ih (fun y hy => hw y (List.mem_cons_of_mem _ hy)) (ts ++ [x])
      (by simp only [List.length_append, List.length_singleton]; omega)
    rw [List.cons_append]
    simp only [scanText, hx, if_true, hs]
    rw [ih2]
    simp

theorem isalpha_not_isdigit (c : Int) (h : isalpha c = true) : isdigit c = false := by
  simp only [isdigit, isalpha, ch_values, decide_eq_true_eq, decide_eq_false_iff_not] at h ⊢
  omega

theorem isdigit_not_isalpha (c : Int) (h : isdigit c = true) : isalpha c = false := by
  simp only [isdigit, isalpha, ch_values, decide_eq_true_eq, decide_eq_false_iff_not] at h ⊢
  omega

/-- A run of digits, a letter, then letters and digits: the whole run is one
`ERROR` token, whatever `currentToken` holds on entry. -/
theorem scanText_malformed_number (M : Nat) (cur : TokenType) (d a t : List Int) (x : Int)
    (hne : d ≠ []) (hd : ∀ c ∈ d, isdigit c = true) (hx : isalpha x = true)
    (ha : ∀ c ∈ a, isdigit c = true ∨ isalpha c = true)
    (ht : ∀ c r, t = c :: r → isdigit c = false ∧ isalpha c = false)
    (hlen : (d ++ x :: a).length ≤ M + 1) :
    scanText M (d ++ x :: a ++ t) .START cur [] = (.ERROR, d ++ x :: a, t) := by
  simp only [List.length_append, List.length_cons] at hlen
  cases d with
  | nil => exact absurd rfl hne
  | cons y d =>
    have hy := hd y (List.mem_cons_self _ _)
    simp only [List.length_cons] at hlen
    have hs := store_alnum M [] y (Or.inl hy) (by simp)
    have h1 := scanText_INNUM_prefix M cur d (x :: (a ++ t))
      (fun z hz => hd z (List.mem_cons_of_mem _ hz)) ([] ++ [y])
      (by simp only [List.nil_append, List.length_singleton]; omega)
    have hsx := store_alnum M ([y] ++ d) x (Or.inr hx)
      (by simp only [List.length_append, List.length_singleton]; omega)
    have h2 := scanText_INNUM_error M a t ha ht ([y] ++ d ++ [x])
      (by simp only [List.length_append, List.length_singleton]; omega)
    have hxd := isalpha_not_isdigit x hx
    have e : (y :: d) ++ x :: a ++ t = y :: (d ++ x :: (a ++ t)) := by simp
    have step1 : scanText M (y :: (d ++ x :: (a ++ t))) .START cur [] =
        scanText M (d ++ x :: (a ++ t)) .INNUM cur ([] ++ [y]) := by
      simp only [scanText, hy, if_true, hs]
    have step2 : scanText M (x :: (a ++ t)) .INNUM cur ([] ++ [y] ++ d) =
        scanText M (a ++ t) .INNUM .ERROR ([y] ++ d ++ [x]) := by
      simp only [scanText, hxd, hx, if_true, Bool.false_eq_true, if_false, List.nil_append,
        hsx]
    rw [e, step1, h1, step2, h2]
    simp

/-- A run of letters, a digit, then letters and digits: the whole run is one
`ERROR` token, whatever `currentToken` holds on entry. -/
theorem scanText_malformed_identifier (M : Nat) (cur : TokenType) (w a t : List Int)
    (x : Int) (hne : w ≠ []) (hw : ∀ c ∈ w, isalpha c = true) (hx : isdigit x = true)
    (ha : ∀ c ∈ a, isdigit c = true ∨ isalpha c = true)
    (ht : ∀ c r, t = c :: r → isdigit c = false ∧ isalpha c = false)
    (hlen : (w ++ x :: a).length ≤ M + 1) :
    scanText M (w ++ x :: a ++ t) .START cur [] = (.ERROR, w ++ x :: a, t) := by
  simp only [List.length_append, List.length_cons] at hlen
  cases w with
  | nil => exact absurd rfl hne
  | cons y w =>
    have hy := hw y (List.mem_cons_self _ _)
    have hyd := isalpha_not_isdigit y hy
    simp only [List.length_cons] at hlen
    have hs := store_alnum M [] y (Or.inr hy) (by simp)
    have h1 := scanText_INID_prefix M cur w (x :: (a ++ t))
      (fun z hz => hw z (List.mem_cons_of_mem _ hz)) ([] ++ [y])
      (by simp only [List.nil_append, List.length_singleton]; omega)
    have hsx := store_alnum M ([y] ++ w) x (Or.inl hx)
      (by simp only [List.length_append, List.length_singleton]; omega)
    have h2 := scanText_INID_error M a t ha ht ([y] ++ w ++ [x])
      (by simp only [List.length_append, List.length_singleton]; omega)
    have hxa := isdigit_not_isalpha x hx
    have e : (y :: w) ++ x :: a ++ t = y :: (w ++ x :: (a ++ t)) := by simp
    have step1 : scanText M (y :: (w ++ x :: (a ++ t))) .START cur [] =
        scanText M (w ++ x :: (a ++ t)) .INID cur ([] ++ [y]) := by
      simp only [scanText, hy, hyd, if_true, Bool.false_eq_true, if_false, hs]
    have step2 : scanText M (x :: (a ++ t)) .INID cur ([] ++ [y] ++ w) =
        scanText M (a ++ t) .INID .ERROR ([y] ++ w ++ [x]) := by
      simp only [scanText, hxa, hx, if_true, Bool.false_eq_true, if_false, List.nil_append,
        hsx]
    rw [e, step1, h1, step2, h2]
    simp

theorem wellFormed_unread_range {b : LineBuffer} (hb : WellFormed b) :
    ∀ c ∈ unread b, IsChar c := by
  obtain ⟨_, _, _, h4, h5, _⟩ := hb
  intro c hc
  simp only [unread, List.mem_append] at hc
  rcases hc with hc | hc
  · exact h4 c (List.mem_of_mem_drop hc)
  · exact h5 c hc

/-- C11: a run of digits immediately followed by a letter, then the end of the
input or a character that is no letter and no digit, is one token of kind
`ERROR` whose lexeme is the run with the letter, as for `12x`. -/
theorem digits_then_letter_is_ERROR (M : Nat) (cur : TokenType) (b : LineBuffer)
    (d t : List Int) (x : Int) (hb : WellFormed b) (hne : d ≠ [])
    (hd : ∀ c ∈ d, isdigit c = true) (hx : isalpha x = true)
    (ht : ∀ c r, t = c :: r → isdigit c = false ∧ isalpha c = false)
    (hlen : (d ++ [x]).length ≤ M) (h : unread b = d ++ [x] ++ t) :
    ∃ b2, getToken M cur b = some (.ERROR, d ++ [x], b2) ∧ unread b2 = t := by
  obtain ⟨b2, hg, _, hu⟩ := getToken_eq_scanText M cur b hb _ h
  have hs := scanText_malformed_number M cur d [] t x hne hd hx (by simp) ht (by omega)
  simp only [List.nil_append] at hs
  rw [hs] at hg hu
  exact ⟨b2, hg, hu⟩

theorem digits_then_letter_is_ERROR_witness :
    WellFormed (openSource (str "12x")) ∧
    ∃ b2, getToken 40 .ENDFILE (openSource (str "12x")) =
      some (.ERROR, str "12" ++ [ch 'x'], b2) ∧ unread b2 = [] :=
  ⟨by decide,
   digits_then_letter_is_ERROR 40 .ENDFILE (openSource (str "12x")) (str "12") [] (ch 'x')
     (by decide) (by decide) (by decide) (by decide) (by simp) (by decide) (by decide)⟩

/-- C12, as stated, fails: on `12x` the lexeme is `12x` and not `12`, and on
`ab1` it is `ab1` and not `ab`; in both cases nothing is left unread, so the next
call does not start at the offending character. -/
theorem malformed_literal_counterexample :
    getToken 40 .ENDFILE (openSource (str "12x")) =
        some (.ERROR, str "12x", ⟨[], str "12x", 3, 3, true, 2⟩) ∧
      str "12x" ≠ str "12" ∧
      unread (⟨[], str "12x", 3, 3, true, 2⟩ : LineBuffer) ≠ str "x" ∧
    getToken 40 .ENDFILE (openSource (str "ab1")) =
        some (.ERROR, str "ab1", ⟨[], str "ab1", 3, 3, true, 2⟩) ∧
      str "ab1" ≠ str "ab" ∧
      unread (⟨[], str "ab1", 3, 3, true, 2⟩ : LineBuffer) ≠ str "1" := by
  decide

/-- C12, amended: on a malformed literal the token is the whole run of letters
and digits.  When a run of digits is followed by a letter, or a run of letters by
a digit, `getToken` returns `ERROR`, the lexeme is the run up to the first
character that is no letter and no digit, the offending character included, and
the text left unread starts at that first character. -/
theorem malformed_literal_is_whole_run (M : Nat) (cur : TokenType) (b : LineBuffer)
    (p a t : List Int) (x : Int) (hb : WellFormed b) (hne : p ≠ [])
    (hpx : ((∀ c ∈ p, isdigit c = true) ∧ isalpha x = true) ∨
      ((∀ c ∈ p, isalpha c = true) ∧ isdigit x = true))
    (ha : ∀ c ∈ a, isdigit c = true ∨ isalpha c = true)
    (ht : ∀ c r, t = c :: r → isdigit c = false ∧ isalpha c = false)
    (hlen : (p ++ x :: a).length ≤ M) (h : unread b = p ++ x :: a ++ t) :
    ∃ b2, getToken M cur b = some (.ERROR, p ++ x :: a, b2) ∧ unread b2 = t := by
  obtain ⟨b2, hg, _, hu⟩ := getToken_eq_scanText M cur b hb _ h
  rcases hpx with ⟨hp, hx⟩ | ⟨hp, hx⟩
  · rw [scanText_malformed_number M cur p a t x hne hp hx ha ht (by omega)] at hg hu
    exact ⟨b2, hg, hu⟩
  · rw [scanText_malformed_identifier M cur p a t x hne hp hx ha ht (by omega)] at hg hu
    exact ⟨b2, hg, hu⟩

theorem malformed_literal_is_whole_run_witness :
    WellFormed (openSource (str "ab1c;")) ∧
    ∃ b2, getToken 40 .ENDFILE (openSource (str "ab1c;")) =
      some (.ERROR, str "ab" ++ ch '1' :: str "c", b2) ∧ unread b2 = str ";" :=
  ⟨by decide,
   malformed_literal_is_whole_run 40 .ENDFILE (openSource (str "ab1c;")) (str "ab")
     (str "c") (str ";") (ch '1') (by decide) (by decide)
     (Or.inr ⟨by decide, by decide⟩) (by decide)
     (by
       intro c r h
       have h2 : [ch ';'] = c :: r := h
       cases h2
       decide)
     (by decide) (by decide)⟩

/-- C20: a lone `!` consumes the character after it.  On `!` followed by a
character `c` other than `=`, `getToken` returns `ERROR` with the lexeme `c`
alone, and the text left unread is what follows `c`; on `<`, `>`, `=` followed by
such a `c`, and on `/` followed by a character other than `*`, the text left
unread starts with that character. -/
theorem lone_bang_consumes_next (M : Nat) (cur : TokenType) (c : Int) (r : List Int) :
    (∀ b, WellFormed b → c ≠ ch '=' → unread b = ch '!' :: c :: r →
      ∃ b2, getToken M cur b = some (.ERROR, [c], b2) ∧ unread b2 = r) ∧
    (∀ b op, WellFormed b → op ∈ [ch '<', ch '>', ch '='] → c ≠ ch '=' →
      unread b = op :: c :: r →
      ∃ tok lex b2, getToken M cur b = some (tok, lex, b2) ∧ unread b2 = c :: r) ∧
    (∀ b, WellFormed b → c ≠ ch '*' → unread b = ch '/' :: c :: r →
      ∃ tok lex b2, getToken M cur b = some (tok, lex, b2) ∧ unread b2 = c :: r) := by
  refine ⟨?_, ?_, ?_⟩
  · intro b hb hc h
    obtain ⟨b2, hg, _, hu⟩ := getToken_eq_scanText M cur b hb _ h
    have hr := wellFormed_unread_range hb c (by rw [h]; simp)
    have hmod : toChar c = c := toChar_of_isChar hr
    simp [scanText, isdigit, isalpha, ch_values] at hg hu hc
    simp [hc, store, hmod] at hg hu
    exact ⟨b2, hg, hu⟩
  · intro b op hb hop hc h
    obtain ⟨b2, hg, _, hu⟩ := getToken_eq_scanText M cur b hb _ h
    simp only [List.mem_cons, List.mem_singleton, List.not_mem_nil, or_false] at hop
    rcases hop with rfl | rfl | rfl <;>
      simp [scanText, isdigit, isalpha, ch_values] at hg hu hc <;>
      simp [hc] at hg hu <;>
      exact ⟨_, _, b2, hg, hu⟩
  · intro b hb hc h
    obtain ⟨b2, hg, _, hu⟩ := getToken_eq_scanText M cur b hb _ h
    simp [scanText, isdigit, isalpha, ch_values] at hg hu hc
    simp [hc] at hg hu
    exact ⟨_, _, b2, hg, hu⟩

theorem lone_bang_consumes_next_witness :
    WellFormed (openSource (str "!x+")) ∧
    ∃ b2, getToken 40 .ENDFILE (openSource (str "!x+")) = some (.ERROR, [ch 'x'], b2) ∧
      unread b2 = str "+" :=
  ⟨by decide,
   (lone_bang_consumes_next 40 .ENDFILE (ch 'x') (str "+")).1 (openSource (str "!x+"))
     (by decide) (by decide) (by decide)⟩

/-! ## The lexeme buffer -/

theorem store_length_le (M : Nat) (save : Bool) (ts : List Int) (c : Int)
    (h : ts.length ≤ M + 1) : (store M save ts c).length ≤ M + 1 := by
  unfold store
  split
  · next hc =>
    have : (ts.length : Int) ≤ M := hc.2
    simp only [List.length_append, List.length_singleton]
    omega
  · exact h

theorem getTokenLoop_tokenString_length (M fuel : Nat) (l l2 : Loop)
    (hl : l.tokenString.length ≤ M + 1) (h : getTokenLoop M fuel l = some l2) :
    l2.tokenString.length ≤ M + 1 := by
  induction fuel generalizing l with
  | zero =>
    by_cases hd : l.state = .DONE
    · simp [getTokenLoop, hd] at h
      subst h
      exact hl
    · simp [getTokenLoop, hd] at h
  | succ n ih =>
    by_cases hd : l.state = .DONE
    · simp [getTokenLoop, hd] at h
      subst h
      exact hl
    · simp only [getTokenLoop, hd, if_false] at h
      exact ih _ (store_length_le M _ _ _ hl) h

/-- The terminating NUL is never written beyond index `MAXTOKENLEN + 1`: the
lexeme that `getToken` returns has at most `MAXTOKENLEN + 1` characters. -/
theorem lexeme_length_le (M : Nat) (cur : TokenType) (b : LineBuffer)
    (r : TokenType × List Int × LineBuffer) (h : getToken M cur b = some r) :
    r.2.1.length ≤ M + 1 := by
  simp only [getToken, Option.map_eq_some'] at h
  obtain ⟨l2, hl, rfl⟩ := h
  exact getTokenLoop_tokenString_length M _ _ l2 (by simp) hl

/-- C13, failing input: on a run of `MAXTOKENLEN + 1` digits `getToken` stores
all of them, at the indices `0` to `MAXTOKENLEN`, so that the terminating NUL is
written at index `MAXTOKENLEN + 1`, the length of the lexeme, which is not one of
the `MAXTOKENLEN + 1` cells of `tokenString`. -/
theorem lexeme_overflows_tokenString (M : Nat) :
    ∃ b2, getToken M .ENDFILE (openSource (List.replicate (M + 1) (ch '1'))) =
        some (.NUM, List.replicate (M + 1) (ch '1'), b2) ∧
      (List.replicate (M + 1) (ch '1')).length = M + 1 := by
  have hr : ∀ c ∈ List.replicate (M + 1) (ch '1'), 1 ≤ c ∧ c ≤ 255 := by
    intro c hc
    rw [List.eq_of_mem_replicate hc]
    decide
  obtain ⟨hw, hu⟩ := wellFormed_openSource _ hr
  rw [map_toChar_ascii _ (fun c hc => by rw [List.eq_of_mem_replicate hc]; decide)] at hu
  obtain ⟨b2, hg, _, _⟩ := getToken_eq_scanText M .ENDFILE _ hw _ hu
  have hd : ∀ c ∈ List.replicate M (ch '1'), isdigit c = true := by
    intro c hc
    rw [List.eq_of_mem_replicate hc]
    decide
  have h1 : isdigit (ch '1') = true := by decide
  have hs := store_alnum M [] (ch '1') (Or.inl h1) (by simp)
  have h2 := scanText_digits M .ENDFILE (List.replicate M (ch '1')) [] hd
    (by intro c r h; cases h) ([] ++ [ch '1']) (by simp; omega)
  have e : scanText M (List.replicate (M + 1) (ch '1')) .START .ENDFILE [] =
      (.NUM, List.replicate (M + 1) (ch '1'), []) := by
    rw [List.replicate_succ]
    simp only [scanText, h1, if_true, hs]
    rw [List.append_nil] at h2
    rw [h2]
    simp
  rw [e] at hg
  exact ⟨b2, hg, by simp⟩

/-- C16, failing input: on the text `42;` the kind that `getToken` returns is
`NUM` when `currentToken` holds `ENDFILE` on entry and `ERROR` when it holds
`ERROR`. -/
theorem kind_depends_on_entry_value :
    getToken 40 .ENDFILE (openSource (str "42;")) =
        some (.NUM, str "42", ⟨[], str "42;", 2, 3, false, 1⟩) ∧
    getToken 40 .ERROR (openSource (str "42;")) =
        some (.ERROR, str "42", ⟨[], str "42;", 2, 3, false, 1⟩) := by
  decide

/-- C18: `getToken` terminates.  On a well-formed line buffer it returns a
token, and from every state of the DFA its loop reaches `DONE` within as many
iterations as there are unread characters, plus one. -/
theorem getToken_terminates (M : Nat) (cur : TokenType) (b : LineBuffer)
    (hb : WellFormed b) :
    (∃ tok lex b2, getToken M cur b = some (tok, lex, b2)) ∧
    (∀ st ts fuel, (unread b).length < fuel →
      ∃ l, getTokenLoop M fuel ⟨st, cur, ts, b⟩ = some l ∧ l.state = .DONE) := by
  refine ⟨?_, ?_⟩
  · obtain ⟨b2, hg, _, _⟩ := getToken_returns M cur b hb
    exact ⟨_, _, b2, hg⟩
  · intro st ts fuel hf
    obtain ⟨b2, hg, _, _⟩ := getTokenLoop_scanText M fuel st cur ts b hb hf
    exact ⟨_, hg, rfl⟩

theorem getToken_terminates_witness :
    WellFormed (openSource (str "12x")) ∧ WellFormed (openSource (str "ab1")) ∧
    WellFormed (openSource (str "/* a * b")) ∧
    (∃ tok lex b2, getToken 40 .ENDFILE (openSource (str "12x")) = some (tok, lex, b2)) ∧
    (∃ tok lex b2, getToken 40 .ENDFILE (openSource (str "ab1")) = some (tok, lex, b2)) ∧
    (∃ tok lex b2, getToken 40 .ENDFILE (openSource (str "/* a * b")) =
      some (tok, lex, b2)) :=
  ⟨by decide, by decide, by decide,
   (getToken_terminates 40 .ENDFILE (openSource (str "12x")) (by decide)).1,
   (getToken_terminates 40 .ENDFILE (openSource (str "ab1")) (by decide)).1,
   (getToken_terminates 40 .ENDFILE (openSource (str "/* a * b")) (by decide)).1⟩

/-! ## One character of pushback -/

theorem stepCalls_shape (l : Loop) :
    stepCalls l = [.get] ∨ stepCalls l = [.get, .unget] ∨ stepCalls l = [.get, .get] ∨
      stepCalls l = [.get, .get, .unget] := by
  unfold stepCalls switchCalls
  cases l.state <;> simp only <;> (try split_ifs) <;> simp

theorem noDoubleUnget_append (s t : List Call) (hs : NoDoubleUnget s)
    (ht : NoDoubleUnget t) (hh : ∀ k ks, t = k :: ks → k = .get) :
    NoDoubleUnget (s ++ t) := by
  induction s with
  | nil => exact ht
  | cons a s ih =>
    cases s with
    | nil =>
      cases t with
      | nil => exact hs
      | cons k ks =>
        have hk := hh k ks rfl
        subst hk
        exact ⟨by simp, ht⟩
    | cons k ks =>
      obtain ⟨h1, h2⟩ := hs
      exact ⟨h1, ih h2⟩

theorem loopCalls_head (M fuel : Nat) (l : Loop) (k : Call) (ks : List Call)
    (h : loopCalls M fuel l = k :: ks) : k = .get := by
  cases fuel with
  | zero => simp [loopCalls] at h
  | succ n =>
    by_cases hd : l.state = .DONE
    · simp [loopCalls, hd] at h
    · simp only [loopCalls, hd, if_false, stepCalls, List.cons_append, List.cons.injEq] at h
      exact h.1.symm

theorem loopCalls_noDoubleUnget (M fuel : Nat) (l : Loop) :
    NoDoubleUnget (loopCalls M fuel l) := by
  induction fuel generalizing l with
  | zero => simp [loopCalls, NoDoubleUnget]
  | succ n ih =>
    by_cases hd : l.state = .DONE
    · simp [loopCalls, hd, NoDoubleUnget]
    · simp only [loopCalls, hd, if_false]
      refine noDoubleUnget_append _ _ ?_ (ih _) (loopCalls_head M n _)
      rcases stepCalls_shape l with h | h | h | h <;> rw [h] <;> simp [NoDoubleUnget]

theorem along_append (P : LineBuffer → Prop) (s t : List Call) (b : LineBuffer)
    (hs : Along P s b) (ht : Along P t (applyCalls s b)) : Along P (s ++ t) b := by
  induction s generalizing b with
  | nil => exact ht
  | cons k s ih => exact ⟨hs.1, ih _ hs.2 ht⟩

theorem along_last (P : LineBuffer → Prop) (s : List Call) (b : LineBuffer)
    (hs : Along P s b) : P (applyCalls s b) := by
  induction s generalizing b with
  | nil => exact hs
  | cons k s ih => exact ih _ hs.2

theorem along_mono (P Q : LineBuffer → Prop) (hPQ : ∀ b, P b → Q b) (s : List Call)
    (b : LineBuffer) (hs : Along P s b) : Along Q s b := by
  induction s generalizing b with
  | nil => exact hPQ _ hs
  | cons k s ih => exact ⟨hPQ _ hs.1, ih _ hs.2⟩

theorem getNextChar_inRange (b : LineBuffer) (h : InRangeNulFree b) :
    InRangeNulFree (getNextChar b).2 ∧
      ((getNextChar b).2.EOF_flag = true ∨ 1 ≤ (getNextChar b).2.linepos) := by
  obtain ⟨⟨h1, h2⟩, h3⟩ := h
  by_cases hlt : b.linepos < b.bufsize
  · have hg : getNextChar b =
        (b.lineBuf.getD b.linepos.toNat 0, { b with linepos := b.linepos + 1 }) := by
      simp [getNextChar, hlt]
    rw [hg]
    refine ⟨⟨⟨?_, ?_⟩, h3⟩, Or.inr ?_⟩ <;> simp only <;> omega
  · cases hs : b.source with
    | nil =>
      have hg : getNextChar b =
          (EOF, { b with EOF_flag := true, lineno := intSucc b.lineno }) := by
        simp [getNextChar, hlt, hs, fgets]
      rw [hg]
      exact ⟨⟨⟨h1, h2⟩, h3⟩, Or.inl rfl⟩
    | cons c src =>
      obtain ⟨l, hl⟩ := readLine_cons 253 c src
      have happ := readLine_append 254 (c :: src)
      have hg : getNextChar b =
          (c, { source := (readLine 254 (c :: src)).2, lineBuf := c :: l, linepos := 1,
                bufsize := strlen (c :: l), EOF_flag := b.EOF_flag,
                lineno := intSucc b.lineno }) := by
        simp [getNextChar, hlt, hs, fgets, BUFLEN, hl]
      have hc0 : c ≠ 0 := h3 c (by rw [hs]; exact List.mem_cons_self _ _)
      have hlen : 1 ≤ strlen (c :: l) := by
        simp [strlen, List.takeWhile_cons, hc0]
      rw [hg]
      refine ⟨⟨⟨by simp, hlen⟩, ?_⟩, Or.inr (le_refl _)⟩
      intro x hx
      refine h3 x ?_
      rw [hs, ← happ]
      exact List.mem_append_right _ hx

theorem ungetNextChar_inRange (b : LineBuffer) (h : InRangeNulFree b)
    (hk : b.EOF_flag = true ∨ 1 ≤ b.linepos) : InRangeNulFree (ungetNextChar b) := by
  obtain ⟨⟨h1, h2⟩, h3⟩ := h
  cases hf : b.EOF_flag with
  | true =>
    have : ungetNextChar b = b := by simp [ungetNextChar, hf]
    rw [this]
    exact ⟨⟨h1, h2⟩, h3⟩
  | false =>
    have hp : 1 ≤ b.linepos := by
      rcases hk with hk | hk
      · rw [hf] at hk
        cases hk
      · exact hk
    have : ungetNextChar b = { b with linepos := b.linepos - 1 } := by
      simp [ungetNextChar, hf]
    rw [this]
    refine ⟨⟨?_, ?_⟩, h3⟩ <;> simp only <;> omega

theorem stepCalls_inRange (l : Loop) (hb : InRangeNulFree l.buf) :
    Along InRangeNulFree (stepCalls l) l.buf := by
  obtain ⟨h1, k1⟩ := getNextChar_inRange l.buf hb
  obtain ⟨h2, k2⟩ := getNextChar_inRange _ h1
  rcases stepCalls_shape l with h | h | h | h <;> rw [h]
  · exact ⟨hb, h1⟩
  · exact ⟨hb, h1, ungetNextChar_inRange _ h1 k1⟩
  · exact ⟨hb, h1, h2⟩
  · exact ⟨hb, h1, h2, ungetNextChar_inRange _ h2 k2⟩

theorem loopCalls_inRange (M fuel : Nat) (l : Loop) (hb : InRangeNulFree l.buf) :
    Along InRangeNulFree (loopCalls M fuel l) l.buf := by
  induction fuel generalizing l with
  | zero => exact hb
  | succ n ih =>
    by_cases hd : l.state = .DONE
    · simp only [loopCalls, hd, if_true]
      exact hb
    · simp only [loopCalls, hd, if_false]
      have hs := stepCalls_inRange l hb
      refine along_append _ _ _ _ hs ?_
      rw [← getTokenStep_buf M l]
      refine ih _ ?_
      rw [getTokenStep_buf M l]
      exact along_last _ _ _ hs

/-- C19, as stated, fails: on a file that starts with a NUL, `getToken`
starts with `0 <= linepos <= bufsize` and returns, with `ERROR`, in a state with
`linepos = 1` and `bufsize = 0`: `strlen` of the line read is `0`. -/
theorem one_character_pushback_counterexample :
    InRange (openSource [0, ch '\n']) ∧
    getToken 40 .ENDFILE (openSource [0, ch '\n']) =
      some (.ERROR, [0], ⟨[], [0, ch '\n'], 1, 0, false, 1⟩) ∧
    ¬ InRange ⟨[], [0, ch '\n'], 1, 0, false, 1⟩ := by
  refine ⟨by decide, by decide, by decide⟩

/-- C19, amended: one character of pushback.  In the calls that `getToken` makes to the
line buffer no two `ungetNextChar` follow each other, and the first call is a
`getNextChar`, so that none do across two calls of `getToken` either.  Started
with `0 <= linepos <= bufsize` on a file whose unread lines hold no NUL,
`0 <= linepos <= bufsize` holds before and after each of these calls, and when
`getToken` returns it is with the line buffer they leave, in which the bound
holds again and the lines left hold no NUL; on a well-formed line buffer
`getToken` does return. -/
theorem one_character_pushback (M : Nat) (cur : TokenType) (b : LineBuffer)
    (hb : InRange b) (hs : ∀ c ∈ b.source, c ≠ 0) :
    NoDoubleUnget (getTokenCalls M cur b) ∧
    (∀ k ks, getTokenCalls M cur b = k :: ks → k = .get) ∧
    (∀ cur2, NoDoubleUnget (getTokenCalls M cur b ++
      getTokenCalls M cur2 (applyCalls (getTokenCalls M cur b) b))) ∧
    Along InRange (getTokenCalls M cur b) b ∧
    (∀ r, getToken M cur b = some r →
      r.2.2 = applyCalls (getTokenCalls M cur b) b ∧ InRange r.2.2 ∧
        ∀ c ∈ r.2.2.source, c ≠ 0) ∧
    (WellFormed b → ∃ tok lex, getToken M cur b =
      some (tok, lex, applyCalls (getTokenCalls M cur b) b)) := by
  have hal : Along InRangeNulFree (getTokenCalls M cur b) b :=
    loopCalls_inRange M _ ⟨.START, cur, [], b⟩ ⟨hb, hs⟩
  have hlast := along_last _ _ _ hal
  refine ⟨loopCalls_noDoubleUnget M _ _, loopCalls_head M _ _, ?_,
    along_mono _ _ (fun _ h => h.1) _ _ hal, ?_, ?_⟩
  · intro cur2
    exact noDoubleUnget_append _ _ (loopCalls_noDoubleUnget M _ _)
      (loopCalls_noDoubleUnget M _ _) (loopCalls_head M _ _)
  · intro r hr
    have hbuf := getToken_buf M cur b r hr
    rw [hbuf]
    exact ⟨rfl, hlast.1, hlast.2⟩
  · intro hw
    obtain ⟨b2, hg, _, _⟩ := getToken_returns M cur b hw
    have := getToken_buf M cur b _ hg
    simp only at this
    rw [this] at hg
    exact ⟨_, _, hg⟩

theorem one_character_pushback_witness :
    InRange (openSource (str "/*a**/1+")) ∧
    (∀ c ∈ (openSource (str "/*a**/1+")).source, c ≠ 0) ∧
    getTokenCalls 40 .ENDFILE (openSource (str "/*a**/1+")) =
      [.get, .get, .get, .get, .get, .unget, .get, .get, .get, .get, .unget] ∧
    NoDoubleUnget (getTokenCalls 40 .ENDFILE (openSource (str "/*a**/1+"))) ∧
    Along InRange (getTokenCalls 40 .ENDFILE (openSource (str "/*a**/1+")))
      (openSource (str "/*a**/1+")) :=
  ⟨by decide, by decide, by decide,
   (one_character_pushback 40 .ENDFILE (openSource (str "/*a**/1+")) (by decide)
      (by decide)).1,
   (one_character_pushback 40 .ENDFILE (openSource (str "/*a**/1+")) (by decide)
      (by decide)).2.2.2.1⟩

end Scan

